import Mathlib

/-!
Verification of the DocuGenie document-to-model content pipeline.

Shallow embedding of the pipeline code:
  - `src/utils.py` (`validate_file_upload`, `extract_text_safely`)
  - `src/document_processor.py` (`_process_pdf`)
  - `src/gemini_analyzer.py` (`_prepare_content_for_analysis`,
    `_parse_analysis_response`, `_fallback_analysis_parsing`,
    `_calculate_confidence`)

Modelling conventions:
  - Python strings are Lean `String` / `List Char`; whitespace is the ASCII
    whitespace set recognised by `str.split()` / `str.strip()`.
  - Python floats are modelled as exact rationals (`ℚ`); JSON numbers are
    modelled as exact decimals (mantissa and decimal-exponent).
  - The external `json` library (`loads`) is modelled by an executable JSON
    reader over a JSON syntax tree; Python dicts appearing as parse results
    are modelled by the `Json` object form itself.
  - The external PIL `Image.thumbnail` call is modelled at contract level
    with exact rational arithmetic; its in-place mutation of the image is
    made explicit by returning the post-call state of the image list.
  - Error messages produced by `validate_file_upload` are modelled as a
    tagged message type (the f-string rendering is presentation only).
-/

namespace DocuGenie

/-- Whitespace characters recognised by Python `str.split()` / `str.strip()`
(ASCII subset: space, tab, newline, carriage return, vertical tab, form feed). -/
def pyWs (c : Char) : Bool :=
  c = ' ' || c = '\t' || c = '\n' || c = '\r' || c = Char.ofNat 11 || c = Char.ofNat 12

/-- Python `str.strip()` on a character list: drop whitespace from both ends. -/
def stripChars (l : List Char) : List Char :=
  ((l.dropWhile pyWs).reverse.dropWhile pyWs).reverse

/-- Python `str.strip()`. -/
def pyStrip (s : String) : String :=
  ⟨stripChars s.data⟩

/-- Worker for Python `str.split()` with no argument: the accumulator holds the
(reversed) current word. -/
def wordsAux : List Char → List Char → List (List Char)
  | [], acc => if acc = [] then [] else [acc.reverse]
  | c :: cs, acc =>
    if pyWs c then
      if acc = [] then wordsAux cs [] else acc.reverse :: wordsAux cs []
    else wordsAux cs (c :: acc)

/-- Python `str.split()` with no argument: maximal runs of non-whitespace. -/
def pySplitWs (l : List Char) : List (List Char) :=
  wordsAux l []

/-- `" ".join(words)` on character lists. -/
def joinSp : List (List Char) → List Char
  | [] => []
  | [w] => w
  | w :: ws => w ++ ' ' :: joinSp ws

/-- `" ".join(text.split())`: Python whitespace normalisation used by
`extract_text_safely`. -/
def normalizeWsChars (l : List Char) : List Char :=
  joinSp (pySplitWs l)

/-- Python slicing `s[:n]` (by code points). -/
def pyTake (s : String) (n : Nat) : String :=
  ⟨s.data.take n⟩

/-- `utils.extract_text_safely(text, max_length)`: whitespace-normalise, then
truncate to `maxLength` characters appending `"..."` when truncation occurs. -/
def extract_text_safely (text : String) (maxLength : Nat) : String :=
  if text = "" then ""
  else
    let t : String := ⟨normalizeWsChars text.data⟩
    if t.length > maxLength then pyTake t maxLength ++ "..." else t

example : extract_text_safely "a  b" 1000 = "a b" := by decide
example : extract_text_safely " a" 1000 = "a" := by decide
example : pyStrip "  x  " = "x" := by decide

/-! ## File upload validation (`utils.validate_file_upload`,
`DocumentProcessor.extract_content`) -/

/-- An uploaded file as seen by `validate_file_upload`: its declared name and
the byte length of `getvalue()`. -/
structure UploadedFile where
  name : String
  size : Nat
deriving DecidableEq

/-- The outcome messages of `validate_file_upload`, as a tagged type.  The
source renders these as f-strings; the tag `tooLarge` corresponds to the
spec's `FileTooLargeError`, `unsupported` to `UnsupportedFormatError`. -/
inductive ValidationMsg where
  | noFile
  | tooLarge (sizeMB : ℚ)
  | unsupported (ext : String)
  | fileIsValid
deriving DecidableEq

/-- Python `str.lower()` (ASCII model). -/
def pyLower (s : String) : String :=
  ⟨s.data.map Char.toLower⟩

/-- Python `name.split('.')[-1]`: the suffix after the last dot (the whole
string when it has no dot). -/
def lastDotComponent (s : String) : String :=
  ⟨(s.data.reverse.takeWhile (fun c => c ≠ '.')).reverse⟩

/-- The supported extension list from `utils.validate_file_upload`. -/
def supported_types : List String :=
  ["pdf", "png", "jpg", "jpeg", "tiff", "bmp"]

/-- `utils.validate_file_upload(uploaded_file)`: size limit first (strictly
more than 50MB, computed as exact division by 1024², is rejected), then the
extension check. -/
def validate_file_upload (f : Option UploadedFile) : Bool × ValidationMsg :=
  match f with
  | none => (false, .noFile)
  | some file =>
    let fileSize : ℚ := (file.size : ℚ) / (1024 * 1024)
    if fileSize > 50 then (false, .tooLarge fileSize)
    else
      let ext := lastDotComponent (pyLower file.name)
      if ext ∈ supported_types then (true, .fileIsValid)
      else (false, .unsupported ext)

/-- `DocumentProcessor.extract_content`, parametric in the two per-format
processing functions (`_process_pdf` / `_process_image`): validation failure
raises (here: returns `.error`) before either processing function runs. -/
def extract_content {α : Type} (processPdfFn processImageFn : UploadedFile → α)
    (f : Option UploadedFile) : Except ValidationMsg α :=
  match validate_file_upload f, f with
  | (true, _), some file =>
    if lastDotComponent (pyLower file.name) = "pdf" then .ok (processPdfFn file)
    else .ok (processImageFn file)
  | (true, _), none => .error .noFile
  | (false, msg), _ => .error msg

/-! ## PDF extraction (`DocumentProcessor._process_pdf`) -/

/-- A raster image, identified by its pixel dimensions.  Dimensions are exact
rationals so that the PIL `thumbnail` model is exact arithmetic. -/
structure PImg where
  w : ℚ
  h : ℚ
deriving DecidableEq

/-- An embedded PDF image as the extraction loop sees it: `n` is `pix.n`
(total channel count), `alpha` is `pix.alpha` (1 when an alpha channel is
present), and `decoded` is the resulting raster (`none` when any step of the
per-image extraction raises, which the loop logs and skips). -/
structure PdfImage where
  n : Nat
  alpha : Nat
  decoded : Option PImg
deriving DecidableEq

/-- One PDF page: its embedded text (`page.get_text()`) and its embedded
image list (`page.get_images()`), in order. -/
structure PdfPage where
  text : String
  images : List PdfImage
deriving DecidableEq

/-- A PDF document: its pages in order. -/
structure PdfDoc where
  pages : List PdfPage
deriving DecidableEq

/-- The image-extraction loop of `_process_pdf`: keep an image when its
extraction does not raise and `pix.n - pix.alpha < 4` (GRAY or RGB). -/
def pdfKeptImages (doc : PdfDoc) : List PImg :=
  doc.pages.flatMap fun p =>
    p.images.filterMap fun im =>
      match im.decoded with
      | some pi => if im.n - im.alpha < 4 then some pi else none
      | none => none

/-- The text-collection loop of `_process_pdf`: page texts whose `strip()` is
non-empty, joined with `"\n\n"`. -/
def pdfFullText (doc : PdfDoc) : String :=
  String.intercalate "\n\n"
    (doc.pages.filterMap fun p => if pyStrip p.text ≠ "" then some p.text else none)

/-- `DocumentProcessor._process_pdf`, parametric in the OCR routine
(`_perform_ocr_on_images`): returns `(full_text, images)`, where OCR output
replaces the text exactly when the joined text strips to empty and at least
one image was extracted. -/
def process_pdf (ocr : List PImg → String) (doc : PdfDoc) : String × List PImg :=
  let images := pdfKeptImages doc
  let full_text := pdfFullText doc
  if pyStrip full_text = "" ∧ images ≠ [] then (ocr images, images)
  else (full_text, images)

/-! ## Content preparation (`GeminiAnalyzer._prepare_content_for_analysis`) -/

/-- One unit submitted to the model: a text part or an image part. -/
inductive ContentPart where
  | textPart (s : String)
  | imagePart (img : PImg)
deriving DecidableEq

/-- Model of PIL `Image.thumbnail((1024, 1024), LANCZOS)` at contract level:
no-op within bounds, otherwise scale both sides by `1024 / max w h` (exact
rational arithmetic; PIL additionally rounds to whole pixels).  The real call
mutates the image in place; `prepare_content_for_analysis` below accounts for
that by returning the post-call image list. -/
def pilThumbnail (img : PImg) : PImg :=
  if img.w ≤ 1024 ∧ img.h ≤ 1024 then img
  else
    let k : ℚ := 1024 / max img.w img.h
    ⟨img.w * k, img.h * k⟩

/-- The conditional resize applied inside the loop of
`_prepare_content_for_analysis`: thumbnail only when a side exceeds 1024. -/
def condResize (img : PImg) : PImg :=
  if img.w > 1024 ∨ img.h > 1024 then pilThumbnail img else img

/-- `GeminiAnalyzer._prepare_content_for_analysis(text, images)`.  The first
component is `content_parts`; the second is the state of the caller's image
list after the call (PIL `thumbnail` resizes the first five images in place;
the rest are untouched). -/
def prepare_content_for_analysis (text : Option String) (images : List PImg) :
    List ContentPart × List PImg :=
  let textParts : List ContentPart :=
    match text with
    | some t =>
      if t ≠ "" ∧ pyStrip t ≠ "" then [.textPart (extract_text_safely t 30000)]
      else []
    | none => []
  let processed : List PImg := (images.take 5).map condResize
  (textParts ++ processed.map .imagePart, processed ++ images.drop 5)

example :
    prepare_content_for_analysis (some "hi  there") [⟨2048, 1024⟩, ⟨10, 20⟩] =
      ([.textPart "hi there", .imagePart ⟨1024, 512⟩, .imagePart ⟨10, 20⟩],
        [⟨1024, 512⟩, ⟨10, 20⟩]) := by
  simp +decide [prepare_content_for_analysis, condResize, pilThumbnail]
  norm_num

example :
    validate_file_upload (some ⟨"a.PDF", 52428800⟩) = (true, .fileIsValid) := by
  have h1 : ¬ (50 < (52428800 : ℚ) / (1024 * 1024)) := by norm_num
  have h2 : lastDotComponent (pyLower "a.PDF") ∈ supported_types := by decide
  simp [validate_file_upload, if_neg h1, if_pos h2]

example :
    (validate_file_upload (some ⟨"a.pdf", 52428801⟩)).1 = false := by
  simp +decide [validate_file_upload]
  norm_num

example :
    process_pdf (fun _ => "OCR") ⟨[⟨" ", []⟩, ⟨"A", []⟩]⟩ = ("A", []) := by decide

/-! ## Model of the Python `json` library

`json.loads` / `json.dumps` are external library calls.  They are modelled by
an explicit JSON syntax tree, an executable writer and an executable reader.
JSON numbers are exact decimals `m / 10^e` (Python floats are modelled as
exact decimals).  A Python dict arising from `json.loads` is modelled by the
`Json.obj` form itself. -/

/-- JSON values.  `num m e` denotes the decimal `m / 10^e`. -/
inductive Json where
  | null
  | bool (b : Bool)
  | num (m : Int) (e : Nat)
  | str (s : String)
  | arr (items : List Json)
  | obj (members : List (String × Json))

/-- `dict.get(key)`: first binding of `key` (models Python dict lookup; the
objects built in this development have distinct keys). -/
def lookupJ (k : String) : List (String × Json) → Option Json
  | [] => none
  | (k2, v) :: rest => if k2 = k then some v else lookupJ k rest

/-- Little-endian decimal digits, by fuel (`fuel ≥ n` gives all digits). -/
def natDigitsAux : Nat → Nat → List Nat
  | 0, _ => []
  | fuel + 1, n => if n = 0 then [] else n % 10 :: natDigitsAux fuel (n / 10)

/-- Little-endian decimal digits of `n` (empty for `0`). -/
def natDigitsLE (n : Nat) : List Nat :=
  natDigitsAux n n

/-- Big-endian decimal digit characters of a natural number (`"0"` included). -/
def natDigitChars (n : Nat) : List Char :=
  if n = 0 then ['0'] else (natDigitsLE n).reverse.map Nat.digitChar

/-- The digit string of an unsigned decimal `n / 10^e`: the digits of `n`
left-padded with zeros to at least `e + 1` digits, with a decimal point
inserted before the last `e` digits when `e > 0`. -/
def unsignedDecimalChars (n e : Nat) : List Char :=
  let ds := natDigitChars n
  if e = 0 then ds
  else
    let padded := List.replicate (e + 1 - ds.length) '0' ++ ds
    padded.take (padded.length - e) ++ '.' :: padded.drop (padded.length - e)

/-- The written form of a JSON decimal `m / 10^e`. -/
def decimalChars (m : Int) (e : Nat) : List Char :=
  (if m < 0 then ['-'] else []) ++ unsignedDecimalChars m.natAbs e

/-- JSON string-body escaping used by the writer. -/
def escapeChar (c : Char) : List Char :=
  if c = '"' then ['\\', '"']
  else if c = '\\' then ['\\', '\\']
  else if c = '\n' then ['\\', 'n']
  else if c = '\t' then ['\\', 't']
  else if c = '\r' then ['\\', 'r']
  else if c = Char.ofNat 8 then ['\\', 'b']
  else if c = Char.ofNat 12 then ['\\', 'f']
  else [c]

/-- Escaped body of a JSON string literal. -/
def escapeBody (l : List Char) : List Char :=
  l.flatMap escapeChar

/-- A quoted JSON string literal. -/
def strLit (s : String) : List Char :=
  '"' :: escapeBody s.data ++ ['"']

/-- Characters of the `null` keyword emitted by the writer. -/
@[simp] def litNull : List Char := ['n', 'u', 'l', 'l']

/-- Characters of the `true` keyword emitted by the writer. -/
@[simp] def litTrue : List Char := ['t', 'r', 'u', 'e']

/-- Characters of the `false` keyword emitted by the writer. -/
@[simp] def litFalse : List Char := ['f', 'a', 'l', 's', 'e']

mutual

/-- JSON writer (model of `json.dumps`, compact separators). -/
def printJ : Json → List Char
  | .null => litNull
  | .bool true => litTrue
  | .bool false => litFalse
  | .num m e => decimalChars m e
  | .str s => strLit s
  | .arr items => '[' :: printItems items ++ [']']
  | .obj members => Char.ofNat 123 :: printMembers members ++ [Char.ofNat 125]

/-- Writer for array items, comma-separated. -/
def printItems : List Json → List Char
  | [] => []
  | [v] => printJ v
  | v :: rest => printJ v ++ ',' :: printItems rest

/-- Writer for object members, comma-separated. -/
def printMembers : List (String × Json) → List Char
  | [] => []
  | [(k, v)] => strLit k ++ ':' :: printJ v
  | (k, v) :: rest => strLit k ++ ':' :: printJ v ++ ',' :: printMembers rest

end

/-- `json.dumps` (model): the written text of a JSON value. -/
def json_dumps (j : Json) : String :=
  ⟨printJ j⟩

mutual

/-- Structural size used as reader fuel. -/
def sizeJ : Json → Nat
  | .null | .bool _ | .num _ _ | .str _ => 1
  | .arr items => 1 + sizeItems items
  | .obj members => 1 + sizeMembers members

/-- Size of array items. -/
def sizeItems : List Json → Nat
  | [] => 0
  | v :: rest => 1 + sizeJ v + sizeItems rest

/-- Size of object members. -/
def sizeMembers : List (String × Json) → Nat
  | [] => 0
  | (_, v) :: rest => 1 + sizeJ v + sizeMembers rest

end

/-! ### The JSON reader (model of `json.loads`) -/

/-- Whitespace accepted between JSON tokens. -/
def jsonWs (c : Char) : Bool :=
  c = ' ' || c = '\t' || c = '\n' || c = '\r'

/-- Skip inter-token whitespace. -/
def skipWs (l : List Char) : List Char :=
  l.dropWhile jsonWs

/-- Numeric value of a decimal digit character. -/
def digitVal (c : Char) : Nat :=
  c.toNat - '0'.toNat

/-- Value of a big-endian digit-character string. -/
def digitsToNat (ds : List Char) : Nat :=
  ds.foldl (fun a c => a * 10 + digitVal c) 0

/-- Value of a hexadecimal digit character, if any. -/
def hexVal (c : Char) : Option Nat :=
  if '0' ≤ c ∧ c ≤ '9' then some (c.toNat - '0'.toNat)
  else if 'a' ≤ c ∧ c ≤ 'f' then some (c.toNat - 'a'.toNat + 10)
  else if 'A' ≤ c ∧ c ≤ 'F' then some (c.toNat - 'A'.toNat + 10)
  else none

/-- Decode a single-character string escape. -/
def unescapeChar (c : Char) : Option Char :=
  if c = '"' then some '"'
  else if c = '\\' then some '\\'
  else if c = '/' then some '/'
  else if c = 'n' then some '\n'
  else if c = 't' then some '\t'
  else if c = 'r' then some '\r'
  else if c = 'b' then some (Char.ofNat 8)
  else if c = 'f' then some (Char.ofNat 12)
  else none

/-- Read a JSON string body up to the closing quote. -/
def readStrBody : List Char → Option (List Char × List Char)
  | [] => none
  | c :: rest =>
    if c = '"' then some ([], rest)
    else if c = '\\' then
      match rest with
      | [] => none
      | d :: rest2 =>
        if d = 'u' then
          match rest2 with
          | h1 :: h2 :: h3 :: h4 :: rest3 =>
            match hexVal h1, hexVal h2, hexVal h3, hexVal h4 with
            | some a, some b, some c2, some d2 =>
              match readStrBody rest3 with
              | some (cs, r) => some (Char.ofNat (((a * 16 + b) * 16 + c2) * 16 + d2) :: cs, r)
              | none => none
            | _, _, _, _ => none
          | _ => none
        else
          match unescapeChar d, readStrBody rest2 with
          | some u, some (cs, r) => some (u :: cs, r)
          | _, _ => none
    else
      match readStrBody rest with
      | some (cs, r) => some (c :: cs, r)
      | none => none

/-- Read the integer digits of a number: either a single `0`, or a nonempty
digit run not starting with `0` (strict JSON grammar). -/
def readIntDigits (l : List Char) : Option (List Char × List Char) :=
  match l with
  | [] => none
  | c :: rest =>
    if c = '0' then
      if (rest.head?.map Char.isDigit).getD false then none else some (['0'], rest)
    else
      let ds := l.takeWhile Char.isDigit
      if ds = [] then none else some (ds, l.dropWhile Char.isDigit)

/-- Apply a base-10 exponent to an unsigned decimal `m0 / 10^e0`. -/
def applyExp (m0 e0 : Nat) (k : Int) : Nat × Nat :=
  if 0 ≤ k then
    let kn := k.toNat
    if kn ≤ e0 then (m0, e0 - kn) else (m0 * 10 ^ (kn - e0), 0)
  else (m0, e0 + (-k).toNat)

/-- Assemble a signed JSON number. -/
def mkNum (neg : Bool) (m0 e0 : Nat) : Json :=
  .num (if neg then -(m0 : Int) else (m0 : Int)) e0

/-- Read an optional exponent part and finish the number. -/
def readExpPart (neg : Bool) (m0 e0 : Nat) (l : List Char) : Option (Json × List Char) :=
  match l with
  | [] => some (mkNum neg m0 e0, [])
  | c :: r =>
    if c = 'e' ∨ c = 'E' then
      let (eneg, r1) :=
        if r.head? = some '-' then (true, r.tail)
        else if r.head? = some '+' then (false, r.tail)
        else (false, r)
      let ds := r1.takeWhile Char.isDigit
      if ds = [] then none
      else
        let k : Int := if eneg then -(digitsToNat ds : Int) else (digitsToNat ds : Int)
        let me := applyExp m0 e0 k
        some (mkNum neg me.1 me.2, r1.dropWhile Char.isDigit)
    else some (mkNum neg m0 e0, c :: r)

/-- Read the unsigned part of a JSON number. -/
def readNumTail (neg : Bool) (l1 : List Char) : Option (Json × List Char) :=
  match readIntDigits l1 with
  | none => none
  | some (ids, l2) =>
    match l2 with
    | [] => readExpPart neg (digitsToNat ids) 0 []
    | c :: r =>
      if c = '.' then
        let fds := r.takeWhile Char.isDigit
        if fds = [] then none
        else readExpPart neg (digitsToNat (ids ++ fds)) fds.length (r.dropWhile Char.isDigit)
      else readExpPart neg (digitsToNat ids) 0 (c :: r)

/-- Read a JSON number. -/
def readNumVal (l : List Char) : Option (Json × List Char) :=
  if l.head? = some '-' then readNumTail true l.tail else readNumTail false l

mutual

/-- The fueled JSON value reader.  Every recursive call consumes one unit of
fuel; `json_loads` supplies `length + 1` units, which suffices because every
recursive call also consumes at least one input character. -/
def readVal : Nat → List Char → Option (Json × List Char)
  | 0, _ => none
  | fuel + 1, l =>
    match skipWs l with
    | [] => none
    | c :: r =>
      if c = '"' then
        match readStrBody r with
        | some (cs, r2) => some (.str ⟨cs⟩, r2)
        | none => none
      else if c = '[' then
        match skipWs r with
        | [] => none
        | c2 :: r2 =>
          if c2 = ']' then some (.arr [], r2)
          else
            match readVal fuel (c2 :: r2) with
            | some (v, r3) =>
              match readArrTail fuel r3 with
              | some (vs, r4) => some (.arr (v :: vs), r4)
              | none => none
            | none => none
      else if c = Char.ofNat 123 then
        match skipWs r with
        | [] => none
        | c2 :: r2 =>
          if c2 = Char.ofNat 125 then some (.obj [], r2)
          else
            match readMemb fuel (c2 :: r2) with
            | some (kv, r3) =>
              match readMembTail fuel r3 with
              | some (kvs, r4) => some (.obj (kv :: kvs), r4)
              | none => none
            | none => none
      else if c = 'n' then
        match r with
        | 'u' :: 'l' :: 'l' :: r2 => some (.null, r2)
        | _ => none
      else if c = 't' then
        match r with
        | 'r' :: 'u' :: 'e' :: r2 => some (.bool true, r2)
        | _ => none
      else if c = 'f' then
        match r with
        | 'a' :: 'l' :: 's' :: 'e' :: r2 => some (.bool false, r2)
        | _ => none
      else readNumVal (c :: r)

/-- Reader for the remainder of an array after one item: `]` or `, item ...`. -/
def readArrTail : Nat → List Char → Option (List Json × List Char)
  | 0, _ => none
  | fuel + 1, l =>
    match skipWs l with
    | [] => none
    | c :: r =>
      if c = ']' then some ([], r)
      else if c = ',' then
        match readVal fuel r with
        | some (v, r2) =>
          match readArrTail fuel r2 with
          | some (vs, r3) => some (v :: vs, r3)
          | none => none
        | none => none
      else none

/-- Reader for one `"key": value` member. -/
def readMemb : Nat → List Char → Option ((String × Json) × List Char)
  | 0, _ => none
  | fuel + 1, l =>
    match skipWs l with
    | [] => none
    | c :: r =>
      if c = '"' then
        match readStrBody r with
        | some (ks, r2) =>
          match skipWs r2 with
          | [] => none
          | c2 :: r3 =>
            if c2 = ':' then
              match readVal fuel r3 with
              | some (v, r4) => some ((⟨ks⟩, v), r4)
              | none => none
            else none
        | none => none
      else none

/-- Reader for the remainder of an object after one member. -/
def readMembTail : Nat → List Char → Option (List (String × Json) × List Char)
  | 0, _ => none
  | fuel + 1, l =>
    match skipWs l with
    | [] => none
    | c :: r =>
      if c = Char.ofNat 125 then some ([], r)
      else if c = ',' then
        match readMemb fuel r with
        | some (kv, r2) =>
          match readMembTail fuel r2 with
          | some (kvs, r3) => some (kv :: kvs, r3)
          | none => none
        | none => none
      else none

end

/-- `json.loads` (model): read one JSON value; trailing non-whitespace is an
error (`none` models `json.JSONDecodeError`). -/
def json_loads (s : String) : Option Json :=
  match readVal (s.length + 1) s.data with
  | some (j, rest) => if skipWs rest = [] then some j else none
  | none => none

example : json_loads "" = none := by rfl
example : json_loads "Sorry, I cannot process this." = none := by rfl
example : json_loads "x" = none := by rfl
example : json_loads "\x7b\x7d" = some (.obj []) := by rfl
example : json_loads "[1.5, \"a\"]" = some (.arr [.num 15 1, .str "a"]) := by rfl
example :
    json_loads "\x7b\"document_type\": \"invoice\", \"entities\": []\x7d" =
      some (.obj [("document_type", .str "invoice"), ("entities", .arr [])]) := by rfl
example : json_loads (json_dumps (.obj [("a", .num (-5) 2), ("b", .null)])) =
    some (.obj [("a", .num (-5) 2), ("b", .null)]) := by rfl

/-! ## Response parsing (`GeminiAnalyzer._parse_analysis_response`,
`_fallback_analysis_parsing`) -/

/-- `GeminiAnalyzer._fallback_analysis_parsing(response_text)`: the structured
wrapper built when JSON parsing fails.  Its argument is the already-stripped
response text. -/
def fallback_analysis_parsing (t : String) : Json :=
  .obj
    [("document_type", .str "unknown"),
      ("summary", .str (if t.length > 500 then pyTake t 500 ++ "..." else t)),
      ("entities", .arr []),
      ("key_points", .arr []),
      ("risk_factors", .arr []),
      ("recommendations", .arr []),
      ("sentiment", .str "neutral"),
      ("urgency", .str "medium"),
      ("completeness", .str "unknown"),
      ("raw_response", .str t)]

/-- `GeminiAnalyzer._parse_analysis_response(response)`: strip the response
text, attempt a JSON parse, and fall back to `_fallback_analysis_parsing` on
failure.  Total: it returns a value for every input string (the code's outer
`except` is unreachable for string input, so `parse` never raises). -/
def parse_analysis_response (raw : String) : Json :=
  let response_text := pyStrip raw
  match json_loads response_text with
  | some analysis_data => analysis_data
  | none => fallback_analysis_parsing response_text

example :
    parse_analysis_response "Sorry, I cannot process this." =
      fallback_analysis_parsing "Sorry, I cannot process this." := by rfl

example :
    parse_analysis_response "\x7b\"document_type\": \"invoice\"\x7d" =
      .obj [("document_type", .str "invoice")] := by rfl

/-! ## Confidence scoring (`GeminiAnalyzer._calculate_confidence`)

The source computes over the parsed Python dict inside a `try`, returning 0.5
on any internal error.  The dict is the `Json` value; Python dynamic-type
errors (`.get` on a non-dict, `len` of a number, summing non-numbers) are the
`Except` error path. -/

/-- Python truthiness of a JSON value. -/
def pyTruthy : Json → Bool
  | .null => false
  | .bool b => b
  | .num m _ => m ≠ 0
  | .str s => s ≠ ""
  | .arr items => !items.isEmpty
  | .obj members => !members.isEmpty

/-- Python `value == "unknown"` for a JSON value: true exactly for the string
`"unknown"` (comparing a non-string to a string is `False`, not an error). -/
def isStrUnknown : Json → Bool
  | .str s => s = "unknown"
  | _ => false

/-- `dict.get(key, default)` on a JSON value: error when the receiver is not
a dict (Python `AttributeError`). -/
def dictGet (j : Json) (k : String) : Except Unit (Option Json) :=
  match j with
  | .obj members => .ok (lookupJ k members)
  | _ => .error ()

/-- A JSON value as a Python number (`bool` is an `int` subtype); error for
non-numeric values (Python `TypeError` on arithmetic). -/
def toNumQ : Json → Except Unit ℚ
  | .num m e => .ok ((m : ℚ) / 10 ^ e)
  | .bool b => .ok (if b then 1 else 0)
  | _ => .error ()

/-- Python `len` of a JSON value; error for values without a length. -/
def pyLen : Json → Except Unit Nat
  | .str s => .ok s.length
  | .arr items => .ok items.length
  | .obj members => .ok members.length
  | _ => .error ()

/-- `e.get("confidence", 0.5)` followed by numeric use, for one entity. -/
def entityConf (e : Json) : Except Unit ℚ := do
  let c? ← dictGet e "confidence"
  match c? with
  | some v => toNumQ v
  | none => pure (1 / 2)

/-- The body of `_calculate_confidence` (inside the `try`). -/
def calcConfidenceBody (j : Json) : Except Unit ℚ := do
  let dt? ← dictGet j "document_type"
  let f1 : ℚ :=
    match dt? with
    | some v => if pyTruthy v ∧ ¬ isStrUnknown v then 3 / 10 else 0
    | none => 0
  let ents? ← dictGet j "entities"
  let ents := ents?.getD (.arr [])
  let f2 : ℚ ←
    if pyTruthy ents then
      match ents with
      | .arr es => do
        let confs ← es.mapM entityConf
        pure ((confs.sum / es.length) * (4 / 10))
      | _ => .error ()
    else pure 0
  let sum? ← dictGet j "summary"
  let sumv := sum?.getD (.str "")
  let f3 : ℚ ←
    if pyTruthy sumv then do
      let n ← pyLen sumv
      pure (if n > 50 then 2 / 10 else 0)
    else pure 0
  let kp? ← dictGet j "key_points"
  let kp := kp?.getD (.arr [])
  let f4 : ℚ := if pyTruthy kp then 1 / 10 else 0
  pure (min (f1 + f2 + f3 + f4) 1)

/-- `GeminiAnalyzer._calculate_confidence(analysis_results)`: the `try` body
with the neutral default `0.5` on any internal error.  Total: never raises. -/
def calculate_confidence (j : Json) : ℚ :=
  match calcConfidenceBody j with
  | .ok q => q
  | .error _ => 1 / 2

/-! ## The `AnalysisResult` record (spec §3) and its JSON form -/

/-- A decimal number `m / 10^e` (model of a Python float field). -/
structure Dec10 where
  m : Int
  e : Nat
deriving DecidableEq

/-- The rational value of a decimal. -/
def Dec10.toRat (d : Dec10) : ℚ :=
  (d.m : ℚ) / 10 ^ d.e

/-- §3 `Entity`.  `confidence` is optional so that an entity serialised
without a confidence key is representable (the scorer defaults it to 0.5). -/
structure Entity where
  type : String
  value : String
  confidence : Option Dec10
  context : String
deriving DecidableEq

/-- §3 `AnalysisResult` (the fields of the structured analysis record;
`raw_response` is present only on the fallback path). -/
structure AnalysisResult where
  document_type : String
  summary : String
  entities : List Entity
  key_points : List String
  risk_factors : List String
  recommendations : List String
  sentiment : String
  urgency : String
  completeness : String
  confidence : Dec10
  processing_time : Dec10
  timestamp : String
  raw_response : Option String
deriving DecidableEq

/-- JSON form of one entity. -/
def entityJson (en : Entity) : Json :=
  .obj
    ([("type", .str en.type), ("value", .str en.value)] ++
      (match en.confidence with
        | some c => [("confidence", Json.num c.m c.e)]
        | none => []) ++
      [("context", .str en.context)])

/-- JSON form of an `AnalysisResult` (its serialisation as a JSON object). -/
def json_of (r : AnalysisResult) : Json :=
  .obj
    ([("document_type", .str r.document_type),
        ("summary", .str r.summary),
        ("entities", .arr (r.entities.map entityJson)),
        ("key_points", .arr (r.key_points.map .str)),
        ("risk_factors", .arr (r.risk_factors.map .str)),
        ("recommendations", .arr (r.recommendations.map .str)),
        ("sentiment", .str r.sentiment),
        ("urgency", .str r.urgency),
        ("completeness", .str r.completeness),
        ("confidence", .num r.confidence.m r.confidence.e),
        ("processing_time", .num r.processing_time.m r.processing_time.e),
        ("timestamp", .str r.timestamp)] ++
      (match r.raw_response with
        | some s => [("raw_response", .str s)]
        | none => []))

/-- Read a JSON string value. -/
def getStr? : Json → Option String
  | .str s => some s
  | _ => none

/-- Read a string field of an object. -/
def getStrField (kvs : List (String × Json)) (k : String) : Option String :=
  (lookupJ k kvs).bind getStr?

/-- Read a decimal field of an object. -/
def getNumField (kvs : List (String × Json)) (k : String) : Option Dec10 :=
  match lookupJ k kvs with
  | some (.num m e) => some ⟨m, e⟩
  | _ => none

/-- Read a JSON array of strings. -/
def getStrList : Json → Option (List String)
  | .arr items => items.mapM getStr?
  | _ => none

/-- Reconstruct one entity from its JSON form. -/
def entityOfJson : Json → Option Entity
  | .obj kvs => do
    let t ← getStrField kvs "type"
    let v ← getStrField kvs "value"
    let cx ← getStrField kvs "context"
    some ⟨t, v, getNumField kvs "confidence", cx⟩
  | _ => none

/-- Reconstruct an `AnalysisResult` from its JSON form (§3 field-for-field). -/
def analysis_of_json : Json → Option AnalysisResult
  | .obj kvs => do
    let dt ← getStrField kvs "document_type"
    let summ ← getStrField kvs "summary"
    let ents ←
      match lookupJ "entities" kvs with
      | some (.arr items) => items.mapM entityOfJson
      | _ => none
    let kps ← (lookupJ "key_points" kvs).bind getStrList
    let rfs ← (lookupJ "risk_factors" kvs).bind getStrList
    let recs ← (lookupJ "recommendations" kvs).bind getStrList
    let sent ← getStrField kvs "sentiment"
    let urg ← getStrField kvs "urgency"
    let comp ← getStrField kvs "completeness"
    let conf ← getNumField kvs "confidence"
    let pt ← getNumField kvs "processing_time"
    let ts ← getStrField kvs "timestamp"
    some ⟨dt, summ, ents, kps, rfs, recs, sent, urg, comp, conf, pt, ts,
      (lookupJ "raw_response" kvs).bind getStr?⟩
  | _ => none

example :
    analysis_of_json
        (json_of
          ⟨"invoice", "sum", [⟨"person", "Bob", some ⟨95, 2⟩, "ctx"⟩], ["k"], [],
            [], "neutral", "low", "complete", ⟨7, 1⟩, ⟨15, 1⟩, "2024", none⟩) =
      some
        ⟨"invoice", "sum", [⟨"person", "Bob", some ⟨95, 2⟩, "ctx"⟩], ["k"], [],
          [], "neutral", "low", "complete", ⟨7, 1⟩, ⟨15, 1⟩, "2024", none⟩ := by rfl

/-! ## Reader–writer round trip -/

theorem takeWhile_append_all {p : Char → Bool} {l1 : List Char} (l2 : List Char)
    (h : ∀ c ∈ l1, p c = true) :
    (l1 ++ l2).takeWhile p = l1 ++ l2.takeWhile p := by
  induction l1 with
  | nil => simp
  | cons a t ih =>
    simp only [List.cons_append, List.takeWhile_cons]
    rw [h a (by simp), ih (fun c hc => h c (by simp [hc]))]
    simp

theorem dropWhile_append_all {p : Char → Bool} {l1 : List Char} (l2 : List Char)
    (h : ∀ c ∈ l1, p c = true) :
    (l1 ++ l2).dropWhile p = l2.dropWhile p := by
  induction l1 with
  | nil => simp
  | cons a t ih =>
    simp only [List.cons_append, List.dropWhile_cons]
    rw [h a (by simp)]
    exact ih (fun c hc => h c (by simp [hc]))

theorem skipWs_cons {c : Char} (l : List Char) (h : jsonWs c = false) :
    skipWs (c :: l) = c :: l := by
  simp [skipWs, List.dropWhile_cons, h]

/-- The little-endian digits of `n` are all below 10. -/
theorem natDigitsAux_lt (fuel : Nat) :
    ∀ n, ∀ d ∈ natDigitsAux fuel n, d < 10 := by
  induction fuel with
  | zero => intro n d hd; simp [natDigitsAux] at hd
  | succ f ih =>
    intro n d hd
    by_cases h0 : n = 0
    · simp [natDigitsAux, h0] at hd
    · simp only [natDigitsAux, if_neg h0, List.mem_cons] at hd
      rcases hd with h | h
      · subst h; omega
      · exact ih _ d h

/-- Little-endian digit value. -/
def littleVal : List Nat → Nat
  | [] => 0
  | d :: ds => d + 10 * littleVal ds

theorem natDigitsAux_val (fuel : Nat) :
    ∀ n, n ≤ fuel → littleVal (natDigitsAux fuel n) = n := by
  induction fuel with
  | zero => intro n h; interval_cases n; simp [natDigitsAux, littleVal]
  | succ f ih =>
    intro n h
    by_cases h0 : n = 0
    · simp [natDigitsAux, h0, littleVal]
    · have hdiv : n / 10 ≤ f := by omega
      simp only [natDigitsAux, if_neg h0, littleVal, ih _ hdiv]
      omega

/-- For a positive `n` the most significant digit is nonzero. -/
theorem natDigitsAux_msd (fuel : Nat) :
    ∀ n, 0 < n → n ≤ fuel →
      ∃ d ds, (natDigitsAux fuel n).reverse = d :: ds ∧ d ≠ 0 ∧ d < 10 := by
  induction fuel with
  | zero => intro n h1 h2; omega
  | succ f ih =>
    intro n h1 h2
    have h0 : n ≠ 0 := by omega
    simp only [natDigitsAux, if_neg h0, List.reverse_cons]
    by_cases hq : n / 10 = 0
    · have : natDigitsAux f (n / 10) = [] := by
        cases f <;> simp [natDigitsAux, hq]
      rw [this]
      refine ⟨n % 10, [], by simp, ?_, by omega⟩
      omega
    · obtain ⟨d, ds, hds, hd0, hd10⟩ := ih (n / 10) (by omega) (by omega)
      exact ⟨d, ds ++ [n % 10], by rw [hds]; simp, hd0, hd10⟩

theorem digitChar_isDigit {d : Nat} (h : d < 10) : (Nat.digitChar d).isDigit = true := by
  interval_cases d <;> decide

theorem digitVal_digitChar {d : Nat} (h : d < 10) : digitVal (Nat.digitChar d) = d := by
  interval_cases d <;> decide

theorem digitChar_ne_zero {d : Nat} (h : d < 10) (h0 : d ≠ 0) : Nat.digitChar d ≠ '0' := by
  interval_cases d <;> simp_all <;> decide

/-- All characters written for a natural number are digits. -/
theorem natDigitChars_isDigit (n : Nat) : ∀ c ∈ natDigitChars n, c.isDigit = true := by
  intro c hc
  by_cases h0 : n = 0
  · simp [natDigitChars, h0] at hc; subst hc; decide
  · simp only [natDigitChars, if_neg h0, List.mem_map, List.mem_reverse] at hc
    obtain ⟨d, hd, rfl⟩ := hc
    exact digitChar_isDigit (natDigitsAux_lt n n d hd)

theorem natDigitChars_ne_nil (n : Nat) : natDigitChars n ≠ [] := by
  by_cases h0 : n = 0
  · simp [natDigitChars, h0]
  · simp only [natDigitChars, if_neg h0]
    intro h
    have h1 := natDigitsAux_val n n (le_refl n)
    rw [show natDigitsLE n = natDigitsAux n n from rfl] at h
    have : natDigitsAux n n = [] := by
      cases haux : natDigitsAux n n with
      | nil => rfl
      | cons a t => rw [haux] at h; simp at h
    rw [this] at h1
    simp [littleVal] at h1
    omega

/-- The written digits of a positive number start with a nonzero digit. -/
theorem natDigitChars_head_pos {n : Nat} (h : 0 < n) :
    ∃ c t, natDigitChars n = c :: t ∧ c.isDigit = true ∧ c ≠ '0' := by
  have h0 : n ≠ 0 := by omega
  obtain ⟨d, ds, hds, hd0, hd10⟩ := natDigitsAux_msd n n h (le_refl n)
  refine ⟨Nat.digitChar d, ds.map Nat.digitChar, ?_, digitChar_isDigit hd10,
    digitChar_ne_zero hd10 hd0⟩
  simp only [natDigitChars, if_neg h0, natDigitsLE, hds, List.map_cons]

/-- Folding the big-endian digit characters accumulates the value. -/
theorem foldl_digits (ds : List Nat) (h : ∀ d ∈ ds, d < 10) :
    ∀ acc, List.foldl (fun a c => a * 10 + digitVal c) acc
      ((ds.reverse).map Nat.digitChar) = acc * 10 ^ ds.length + littleVal ds := by
  induction ds with
  | nil => intro acc; simp [littleVal]
  | cons d tl ih =>
    intro acc
    have hd : d < 10 := h d (by simp)
    simp only [List.reverse_cons, List.map_append, List.map_cons, List.map_nil,
      List.foldl_append, List.foldl_cons, List.foldl_nil, littleVal, List.length_cons]
    rw [ih (fun x hx => h x (by simp [hx])) acc, digitVal_digitChar hd]
    ring

theorem digitsToNat_natDigitChars (n : Nat) : digitsToNat (natDigitChars n) = n := by
  by_cases h0 : n = 0
  · subst h0; decide
  · simp only [digitsToNat, natDigitChars, if_neg h0, natDigitsLE]
    rw [foldl_digits _ (natDigitsAux_lt n n) 0]
    simp [natDigitsAux_val n n (le_refl n)]

/-- Leading zero characters do not change a digit string's value. -/
theorem digitsToNat_zeros (k : Nat) (ds : List Char) :
    digitsToNat (List.replicate k '0' ++ ds) = digitsToNat ds := by
  induction k with
  | zero => simp
  | succ k ih =>
    simp only [digitsToNat, List.replicate_succ, List.cons_append, List.foldl_cons] at ih ⊢
    simpa using ih

/-- A digit character is distinct from every non-digit character. -/
theorem isDigit_ne {c x : Char} (h : c.isDigit = true) (hx : x.isDigit = false) : c ≠ x := by
  intro heq; subst heq; rw [h] at hx; cases hx

/-- Digit characters are not JSON whitespace. -/
theorem isDigit_not_ws {c : Char} (h : c.isDigit = true) : jsonWs c = false := by
  by_cases h1 : c = ' '
  · subst h1; cases h
  by_cases h2 : c = '\t'
  · subst h2; cases h
  by_cases h3 : c = '\n'
  · subst h3; cases h
  by_cases h4 : c = '\r'
  · subst h4; cases h
  simp [jsonWs, h1, h2, h3, h4]

/-- A suffix that cannot be mistaken for more of a number: its head is not a
digit, a decimal point, or an exponent marker. -/
def SafeRest (rest : List Char) : Prop :=
  ∀ c, rest.head? = some c → c.isDigit = false ∧ c ≠ '.' ∧ c ≠ 'e' ∧ c ≠ 'E'

theorem safeRest_nil : SafeRest [] := by
  intro c hc; cases hc

theorem safeRest_cons {c : Char} (l : List Char)
    (h : c.isDigit = false ∧ c ≠ '.' ∧ c ≠ 'e' ∧ c ≠ 'E') : SafeRest (c :: l) := by
  intro d hd
  simp only [List.head?_cons, Option.some.injEq] at hd
  subst hd; exact h

theorem readIntDigits_rt (ds tail : List Char)
    (hds : ∀ c ∈ ds, c.isDigit = true)
    (hhead : ∃ c t, ds = c :: t ∧ (c ≠ '0' ∨ t = []))
    (htail : ∀ c, tail.head? = some c → c.isDigit = false) :
    readIntDigits (ds ++ tail) = some (ds, tail) := by
  obtain ⟨c, t, rfl, hc⟩ := hhead
  have hcd : c.isDigit = true := hds c (by simp)
  simp only [List.cons_append, readIntDigits]
  by_cases hc0 : c = '0'
  · have ht : t = [] := by
      rcases hc with h | h
      · exact absurd hc0 h
      · exact h
    subst ht; subst hc0
    simp only [List.nil_append, if_pos rfl]
    have : (tail.head?.map Char.isDigit).getD false = false := by
      cases htl : tail.head? with
      | none => rfl
      | some d => simp [htl, htail d htl]
    rw [this]
    simp
  · rw [if_neg hc0]
    have htake : List.takeWhile Char.isDigit (c :: (t ++ tail)) = c :: t := by
      rw [← List.cons_append]
      have h1 := takeWhile_append_all tail hds
      rw [h1]
      have : tail.takeWhile Char.isDigit = [] := by
        cases tail with
        | nil => rfl
        | cons d r => simp [List.takeWhile_cons, htail d rfl]
      simp [this]
    have hdrop : List.dropWhile Char.isDigit (c :: (t ++ tail)) = tail := by
      rw [← List.cons_append]
      have h1 := dropWhile_append_all tail hds
      rw [h1]
      cases tail with
      | nil => rfl
      | cons d r => simp [List.dropWhile_cons, htail d rfl]
    rw [htake, hdrop]
    simp

theorem readExpPart_noexp (neg : Bool) (m0 e0 : Nat) (rest : List Char)
    (hrest : SafeRest rest) :
    readExpPart neg m0 e0 rest = some (mkNum neg m0 e0, rest) := by
  cases rest with
  | nil => rfl
  | cons c r =>
    obtain ⟨_, _, he, hE⟩ := hrest c rfl
    simp [readExpPart, he, hE]

/-- The written unsigned decimal starts with a digit and satisfies the strict
leading-zero grammar when split at its integer part. -/
theorem unsignedDecimalChars_head (n e : Nat) :
    ∃ c t, unsignedDecimalChars n e = c :: t ∧ c.isDigit = true := by
  by_cases he : e = 0
  · subst he
    cases hnd : natDigitChars n with
    | nil => exact absurd hnd (natDigitChars_ne_nil _)
    | cons c t =>
      exact ⟨c, t, by simp [unsignedDecimalChars, hnd],
        natDigitChars_isDigit _ c (by rw [hnd]; simp)⟩
  · simp only [unsignedDecimalChars, if_neg he]
    set ds := natDigitChars n with hds
    set padded := List.replicate (e + 1 - ds.length) '0' ++ ds with hpadded
    have hpd : ∀ c ∈ padded, c.isDigit = true := by
      intro c hc
      rw [hpadded] at hc
      rcases List.mem_append.mp hc with h | h
      · rw [List.eq_of_mem_replicate h]; decide
      · exact natDigitChars_isDigit n c h
    have hLlen : e + 1 ≤ padded.length := by
      rw [hpadded]
      have := natDigitChars_ne_nil n
      have hl : 1 ≤ ds.length := by
        cases hnd : ds with
        | nil => exact absurd (hds ▸ hnd) this
        | cons a t => simp [hnd]
      simp only [List.length_append, List.length_replicate]
      omega
    have hX : 1 ≤ padded.length - e := by omega
    cases htk : padded.take (padded.length - e) with
    | nil =>
      exfalso
      have : (padded.take (padded.length - e)).length = padded.length - e := by
        rw [List.length_take]
        omega
      rw [htk] at this
      simp at this
      omega
    | cons c t =>
      refine ⟨c, t ++ '.' :: padded.drop (padded.length - e), by simp [htk], ?_⟩
      have : c ∈ padded := List.take_subset _ _ (by rw [htk]; simp)
      exact hpd c this

theorem readNumTail_rt (neg : Bool) (n e : Nat) (rest : List Char) (hrest : SafeRest rest) :
    readNumTail neg (unsignedDecimalChars n e ++ rest) = some (mkNum neg n e, rest) := by
  have hrestD : ∀ c, rest.head? = some c → c.isDigit = false := fun c hc => (hrest c hc).1
  by_cases he : e = 0
  · subst he
    have hhead : ∃ c t, natDigitChars n = c :: t ∧ (c ≠ '0' ∨ t = []) := by
      by_cases hn : n = 0
      · exact ⟨'0', [], by simp [hn, natDigitChars], Or.inr rfl⟩
      · obtain ⟨c, t, hct, _, hc0⟩ := @natDigitChars_head_pos n (by omega)
        exact ⟨c, t, hct, Or.inl hc0⟩
    have hu0 : unsignedDecimalChars n 0 = natDigitChars n := by
      simp [unsignedDecimalChars]
    rw [hu0]
    simp only [readNumTail]
    rw [readIntDigits_rt _ rest (natDigitChars_isDigit _) hhead hrestD]
    cases rest with
    | nil => simp [readExpPart, digitsToNat_natDigitChars]
    | cons c r =>
      obtain ⟨hcd, hcdot, he1, he2⟩ := hrest c rfl
      simp only [if_neg hcdot]
      rw [readExpPart_noexp _ _ _ _ hrest]
      simp [digitsToNat_natDigitChars]
  · simp only [unsignedDecimalChars, if_neg he]
    set ds := natDigitChars n with hds
    set padded := List.replicate (e + 1 - ds.length) '0' ++ ds with hpadded
    set X := padded.length - e with hXdef
    have hdsnil := natDigitChars_ne_nil n
    have hdslen : 1 ≤ ds.length := by
      cases hnd : ds with
      | nil => exact absurd (hds ▸ hnd) hdsnil
      | cons a t => simp [hnd]
    have hpd : ∀ c ∈ padded, c.isDigit = true := by
      intro c hc
      rw [hpadded] at hc
      rcases List.mem_append.mp hc with h | h
      · rw [List.eq_of_mem_replicate h]; decide
      · exact natDigitChars_isDigit n c h
    have hLlen : e + 1 ≤ padded.length := by
      rw [hpadded]
      simp only [List.length_append, List.length_replicate]
      omega
    have hX1 : 1 ≤ X := by omega
    have htakedig : ∀ c ∈ padded.take X, c.isDigit = true :=
      fun c hc => hpd c (List.take_subset _ _ hc)
    have hdropdig : ∀ c ∈ padded.drop X, c.isDigit = true :=
      fun c hc => hpd c (List.drop_subset _ _ hc)
    have hdroplen : (padded.drop X).length = e := by
      rw [List.length_drop]
      omega
    have hheadtake : ∃ c t, padded.take X = c :: t ∧ (c ≠ '0' ∨ t = []) := by
      by_cases hlen : ds.length ≤ e
      · have hc1 : e + 1 - ds.length = (e - ds.length) + 1 := by omega
        have hpadded1 : padded = '0' :: (List.replicate (e - ds.length) '0' ++ ds) := by
          rw [hpadded, hc1, List.replicate_succ]
          simp
        have hL : padded.length = e + 1 := by
          rw [hpadded]
          simp only [List.length_append, List.length_replicate]
          omega
        have hX' : X = 1 := by omega
        refine ⟨'0', [], ?_, Or.inr rfl⟩
        rw [hX', hpadded1]
        simp
      · have hpad0 : e + 1 - ds.length = 0 := by omega
        have hpadded1 : padded = ds := by rw [hpadded, hpad0]; simp
        have hn : n ≠ 0 := by
          intro hn0
          rw [hn0] at hds
          have : ds = ['0'] := by rw [hds]; rfl
          rw [this] at hlen
          simp at hlen
          omega
        obtain ⟨c, t, hct, hcd, hc0⟩ := @natDigitChars_head_pos n (by omega)
        rw [← hds] at hct
        refine ⟨c, (t.take (X - 1)), ?_, Or.inl hc0⟩
        rw [hpadded1, hct]
        cases hXc : X with
        | zero => omega
        | succ k => simp [List.take_succ_cons]
      -- done
    have hinput : (padded.take X ++ '.' :: padded.drop X) ++ rest =
        padded.take X ++ '.' :: (padded.drop X ++ rest) := by simp
    rw [hinput]
    simp only [readNumTail]
    rw [readIntDigits_rt (padded.take X) ('.' :: (padded.drop X ++ rest)) htakedig hheadtake
      (by intro c hc; simp only [List.head?_cons, Option.some.injEq] at hc; subst hc; decide)]
    simp only [if_pos rfl]
    have hfds : (padded.drop X ++ rest).takeWhile Char.isDigit = padded.drop X := by
      rw [takeWhile_append_all rest hdropdig]
      have : rest.takeWhile Char.isDigit = [] := by
        cases rest with
        | nil => rfl
        | cons d r => simp [List.takeWhile_cons, hrestD d rfl]
      simp [this]
    have hfdrop : (padded.drop X ++ rest).dropWhile Char.isDigit = rest := by
      rw [dropWhile_append_all rest hdropdig]
      cases rest with
      | nil => rfl
      | cons d r => simp [List.dropWhile_cons, hrestD d rfl]
    rw [hfds, hfdrop]
    have hfds_ne : padded.drop X ≠ [] := by
      intro hnil
      rw [hnil] at hdroplen
      simp at hdroplen
      omega
    rw [if_neg hfds_ne]
    rw [List.take_append_drop]
    have hval : digitsToNat padded = n := by
      rw [hpadded, digitsToNat_zeros, hds, digitsToNat_natDigitChars]
    rw [hval, hdroplen]
    exact readExpPart_noexp neg n e rest hrest

theorem readNumVal_rt (m : Int) (e : Nat) (rest : List Char) (hrest : SafeRest rest) :
    readNumVal (decimalChars m e ++ rest) = some (.num m e, rest) := by
  by_cases hm : m < 0
  · have hml : decimalChars m e ++ rest =
        '-' :: (unsignedDecimalChars m.natAbs e ++ rest) := by
      simp [decimalChars, if_pos hm]
    rw [hml]
    simp only [readNumVal, List.head?_cons, if_pos rfl, List.tail_cons]
    rw [readNumTail_rt true m.natAbs e rest hrest]
    have hv : (-(m.natAbs : ℤ)) = m := by omega
    simp only [mkNum, if_true]
    rw [hv]
  · have hml : decimalChars m e ++ rest = unsignedDecimalChars m.natAbs e ++ rest := by
      simp [decimalChars, if_neg hm]
    rw [hml]
    obtain ⟨c, t, hct, hcd⟩ := unsignedDecimalChars_head m.natAbs e
    have hhne : ¬ ((unsignedDecimalChars m.natAbs e ++ rest).head? = some '-') := by
      rw [hct]
      simp only [List.cons_append, List.head?_cons, Option.some.injEq]
      exact isDigit_ne hcd (by decide)
    simp only [readNumVal, if_neg hhne]
    rw [readNumTail_rt false m.natAbs e rest hrest]
    have hv : ((m.natAbs : ℤ)) = m := by omega
    simp [mkNum, hv]

/-- One escape step of the string reader. -/
theorem readStrBody_esc {d u : Char} (hd : ¬ d = 'u') (hu : unescapeChar d = some u)
    {X : List Char} {cs2 r : List Char} (hX : readStrBody X = some (cs2, r)) :
    readStrBody ('\\' :: d :: X) = some (u :: cs2, r) := by
  rw [readStrBody.eq_def]
  simp only [if_neg (show ¬('\\' = '"') by decide), if_pos rfl, if_neg hd, hu, hX]
  simp

theorem readStrBody_rt (cs : List Char) :
    ∀ rest, readStrBody (escapeBody cs ++ '"' :: rest) = some (cs, rest) := by
  induction cs with
  | nil =>
    intro rest
    show readStrBody ('"' :: rest) = some ([], rest)
    rw [readStrBody.eq_def]
    simp
  | cons c cs ih =>
    intro rest
    have hmain : escapeBody (c :: cs) = escapeChar c ++ escapeBody cs := by
      simp [escapeBody]
    rw [hmain, List.append_assoc]
    by_cases h1 : c = '"'
    · subst h1; exact readStrBody_esc (by decide) (by decide) (ih rest)
    by_cases h2 : c = '\\'
    · subst h2; exact readStrBody_esc (by decide) (by decide) (ih rest)
    by_cases h3 : c = '\n'
    · subst h3; exact readStrBody_esc (by decide) (by decide) (ih rest)
    by_cases h4 : c = '\t'
    · subst h4; exact readStrBody_esc (by decide) (by decide) (ih rest)
    by_cases h5 : c = '\r'
    · subst h5; exact readStrBody_esc (by decide) (by decide) (ih rest)
    by_cases h6 : c = Char.ofNat 8
    · subst h6; exact readStrBody_esc (by decide) (by decide) (ih rest)
    by_cases h7 : c = Char.ofNat 12
    · subst h7; exact readStrBody_esc (by decide) (by decide) (ih rest)
    have hesc : escapeChar c = [c] := by
      simp [escapeChar, h1, h2, h3, h4, h5, h6, h7]
    rw [hesc]
    rw [List.singleton_append, readStrBody.eq_def]
    simp only [if_neg h1, if_neg h2, ih]

/-- Every written JSON value starts with a character that is not whitespace
and not a closing delimiter. -/
theorem printJ_head (j : Json) :
    ∃ c t, printJ j = c :: t ∧ jsonWs c = false ∧ c ≠ ']' ∧ c ≠ Char.ofNat 125 := by
  have hgood : ∀ c : Char,
      (c = 'n' ∨ c = 't' ∨ c = 'f' ∨ c = '"' ∨ c = '[' ∨ c = Char.ofNat 123) →
      jsonWs c = false ∧ c ≠ ']' ∧ c ≠ Char.ofNat 125 := by
    intro c hc
    rcases hc with rfl | rfl | rfl | rfl | rfl | rfl <;>
      refine ⟨by decide, by decide, by decide⟩
  cases j with
  | null => exact ⟨'n', _, rfl, hgood 'n' (Or.inl rfl)⟩
  | bool b =>
    rcases b with _ | _
    · exact ⟨'f', _, rfl, hgood 'f' (by simp)⟩
    · exact ⟨'t', _, rfl, hgood 't' (by simp)⟩
  | str s => exact ⟨'"', _, rfl, hgood '"' (by simp)⟩
  | arr items =>
    refine ⟨'[', printItems items ++ [']'], by cases items <;> simp [printJ, printItems],
      hgood '[' (by simp)⟩
  | obj members =>
    refine ⟨Char.ofNat 123, printMembers members ++ [Char.ofNat 125],
      by cases members <;> simp [printJ, printMembers], hgood (Char.ofNat 123) (by simp)⟩
  | num m e =>
    by_cases hm : m < 0
    · refine ⟨'-', unsignedDecimalChars m.natAbs e, ?_, by decide, by decide, by decide⟩
      simp [printJ, decimalChars, if_pos hm]
    · obtain ⟨c, t, hct, hcd⟩ := unsignedDecimalChars_head m.natAbs e
      refine ⟨c, t, ?_, isDigit_not_ws hcd, isDigit_ne hcd (by decide),
        isDigit_ne hcd (by decide)⟩
      simp [printJ, decimalChars, if_neg hm, hct]

theorem printJ_ne_nil (j : Json) : printJ j ≠ [] := by
  obtain ⟨c, t, h, _, _, _⟩ := printJ_head j
  simp [h]

theorem printJ_length_pos (j : Json) : 1 ≤ (printJ j).length := by
  obtain ⟨c, t, h, _, _, _⟩ := printJ_head j
  simp [h]

/-- The written form of an array after its first item. -/
def printArrTail : List Json → List Char
  | [] => [']']
  | v :: vs => ',' :: printJ v ++ printArrTail vs

/-- The written form of an object after its first member. -/
def printMembTail : List (String × Json) → List Char
  | [] => [Char.ofNat 125]
  | (k, v) :: kvs => ',' :: strLit k ++ ':' :: printJ v ++ printMembTail kvs

theorem printItems_split (v : Json) (vs : List Json) (rest : List Char) :
    printItems (v :: vs) ++ ']' :: rest = printJ v ++ (printArrTail vs ++ rest) := by
  induction vs generalizing v with
  | nil => simp [printItems, printArrTail]
  | cons w ws ih =>
    have h1 : printItems (v :: w :: ws) = printJ v ++ ',' :: printItems (w :: ws) := by
      simp [printItems]
    rw [h1]
    have h2 := ih w
    simp only [printArrTail]
    simp only [List.append_assoc, List.cons_append] at h2 ⊢
    rw [h2]

theorem printMembers_split (k : String) (v : Json) (kvs : List (String × Json))
    (rest : List Char) :
    printMembers ((k, v) :: kvs) ++ Char.ofNat 125 :: rest =
      strLit k ++ ':' :: printJ v ++ (printMembTail kvs ++ rest) := by
  induction kvs generalizing k v with
  | nil => simp [printMembers, printMembTail]
  | cons kv kvs ih =>
    obtain ⟨k2, v2⟩ := kv
    have h1 : printMembers ((k, v) :: (k2, v2) :: kvs) =
        strLit k ++ ':' :: printJ v ++ ',' :: printMembers ((k2, v2) :: kvs) := by
      simp [printMembers]
    rw [h1]
    have h2 := ih k2 v2
    simp only [printMembTail]
    simp only [List.append_assoc, List.cons_append] at h2 ⊢
    rw [h2]

theorem arr_unfold (v : Json) (vs : List Json) (rest : List Char) :
    printJ (.arr (v :: vs)) ++ rest = '[' :: (printJ v ++ (printArrTail vs ++ rest)) := by
  have h0 : printJ (.arr (v :: vs)) = '[' :: printItems (v :: vs) ++ [']'] := by
    simp [printJ]
  rw [h0]
  have := printItems_split v vs rest
  simp only [List.cons_append, List.append_assoc, List.singleton_append,
    List.nil_append] at this ⊢
  rw [this]

theorem obj_unfold (k : String) (v : Json) (kvs : List (String × Json)) (rest : List Char) :
    printJ (.obj ((k, v) :: kvs)) ++ rest =
      Char.ofNat 123 :: (strLit k ++ ':' :: printJ v ++ (printMembTail kvs ++ rest)) := by
  have h0 : printJ (.obj ((k, v) :: kvs)) =
      Char.ofNat 123 :: printMembers ((k, v) :: kvs) ++ [Char.ofNat 125] := by
    simp [printJ]
  rw [h0]
  have := printMembers_split k v kvs rest
  simp only [List.cons_append, List.append_assoc, List.singleton_append,
    List.nil_append] at this ⊢
  rw [this]

theorem safeRest_arrTail (vs : List Json) (rest : List Char) :
    SafeRest (printArrTail vs ++ rest) := by
  cases vs with
  | nil => exact safeRest_cons _ (by refine ⟨by decide, by decide, by decide, by decide⟩)
  | cons v vs =>
    simp only [printArrTail, List.cons_append]
    exact safeRest_cons _ (by refine ⟨by decide, by decide, by decide, by decide⟩)

theorem safeRest_membTail (kvs : List (String × Json)) (rest : List Char) :
    SafeRest (printMembTail kvs ++ rest) := by
  cases kvs with
  | nil => exact safeRest_cons _ (by refine ⟨by decide, by decide, by decide, by decide⟩)
  | cons kv kvs =>
    obtain ⟨k, v⟩ := kv
    simp only [printMembTail, List.cons_append]
    exact safeRest_cons _ (by refine ⟨by decide, by decide, by decide, by decide⟩)

theorem printArrTail_length_pos (vs : List Json) : 1 ≤ (printArrTail vs).length := by
  cases vs <;> simp [printArrTail]

theorem printMembTail_length_pos (kvs : List (String × Json)) :
    1 ≤ (printMembTail kvs).length := by
  cases kvs with
  | nil => simp [printMembTail]
  | cons kv kvs => obtain ⟨k, v⟩ := kv; simp [printMembTail]

theorem strLit_length (s : String) : 2 ≤ (strLit s).length := by
  simp [strLit]

theorem str_unfold (s : String) (rest : List Char) :
    printJ (.str s) ++ rest = '"' :: (escapeBody s.data ++ '"' :: rest) := by
  simp [printJ, strLit]

theorem decimalChars_head (m : Int) (e : Nat) :
    ∃ c t, decimalChars m e = c :: t ∧ (c = '-' ∨ c.isDigit = true) := by
  by_cases hm : m < 0
  · exact ⟨'-', unsignedDecimalChars m.natAbs e, by simp [decimalChars, if_pos hm], Or.inl rfl⟩
  · obtain ⟨c, t, hct, hcd⟩ := unsignedDecimalChars_head m.natAbs e
    exact ⟨c, t, by simp [decimalChars, if_neg hm, hct], Or.inr hcd⟩

theorem num_head_dispatch {c : Char} (h : c = '-' ∨ c.isDigit = true) :
    jsonWs c = false ∧ ¬c = '"' ∧ ¬c = '[' ∧ ¬c = Char.ofNat 123 ∧ ¬c = 'n' ∧
      ¬c = 't' ∧ ¬c = 'f' := by
  rcases h with rfl | hd
  · exact ⟨by decide, by decide, by decide, by decide, by decide, by decide, by decide⟩
  · exact ⟨isDigit_not_ws hd, isDigit_ne hd (by decide), isDigit_ne hd (by decide),
      isDigit_ne hd (by decide), isDigit_ne hd (by decide), isDigit_ne hd (by decide),
      isDigit_ne hd (by decide)⟩

/-- Round trip of the fueled reader over the writer: with enough fuel, reading
a written value consumes exactly that value. -/
theorem read_rt (fuel : Nat) :
    (∀ (j : Json) (rest : List Char), SafeRest rest →
      (printJ j ++ rest).length < fuel →
      readVal fuel (printJ j ++ rest) = some (j, rest)) ∧
    (∀ (items : List Json) (rest : List Char), SafeRest rest →
      (printArrTail items ++ rest).length < fuel →
      readArrTail fuel (printArrTail items ++ rest) = some (items, rest)) ∧
    (∀ (k : String) (v : Json) (rest : List Char), SafeRest rest →
      (strLit k ++ ':' :: printJ v ++ rest).length < fuel →
      readMemb fuel (strLit k ++ ':' :: printJ v ++ rest) = some ((k, v), rest)) ∧
    (∀ (kvs : List (String × Json)) (rest : List Char), SafeRest rest →
      (printMembTail kvs ++ rest).length < fuel →
      readMembTail fuel (printMembTail kvs ++ rest) = some (kvs, rest)) := by
  induction fuel with
  | zero =>
    refine ⟨fun j rest _ h => absurd h (by omega), fun a rest _ h => absurd h (by omega),
      fun k v rest _ h => absurd h (by omega), fun kvs rest _ h => absurd h (by omega)⟩
  | succ f ih =>
    obtain ⟨ihv, iha, ihm, ihmt⟩ := ih
    have hval : ∀ (j : Json) (rest : List Char), SafeRest rest →
        (printJ j ++ rest).length < f + 1 →
        readVal (f + 1) (printJ j ++ rest) = some (j, rest) := by
      intro j rest hsafe hlen
      cases j with
      | null =>
        have hin : printJ .null ++ rest = 'n' :: 'u' :: 'l' :: 'l' :: rest := by
          simp [printJ]
        rw [hin, readVal.eq_def]
        simp only [skipWs_cons _ (show jsonWs 'n' = false by decide)]
        simp
      | bool b =>
        cases b with
        | true =>
          have hin : printJ (.bool true) ++ rest = 't' :: 'r' :: 'u' :: 'e' :: rest := by
            simp [printJ]
          rw [hin, readVal.eq_def]
          simp only [skipWs_cons _ (show jsonWs 't' = false by decide)]
          simp
        | false =>
          have hin : printJ (.bool false) ++ rest = 'f' :: 'a' :: 'l' :: 's' :: 'e' :: rest := by
            simp [printJ]
          rw [hin, readVal.eq_def]
          simp only [skipWs_cons _ (show jsonWs 'f' = false by decide)]
          simp
      | str s =>
        rw [str_unfold, readVal.eq_def]
        simp only [skipWs_cons _ (show jsonWs '"' = false by decide)]
        simp only [readStrBody_rt s.data rest]
        simp
      | num m e =>
        obtain ⟨c, t, hct, hc⟩ := decimalChars_head m e
        obtain ⟨hws, hne1, hne2, hne3, hne4, hne5, hne6⟩ := num_head_dispatch hc
        have hin : printJ (.num m e) ++ rest = c :: (t ++ rest) := by
          simp [printJ, hct]
        rw [hin, readVal.eq_def]
        simp only [skipWs_cons _ hws]
        simp only [if_neg hne1, if_neg hne2, if_neg hne3, if_neg hne4, if_neg hne5,
          if_neg hne6]
        have : c :: (t ++ rest) = decimalChars m e ++ rest := by simp [hct]
        rw [this, readNumVal_rt m e rest hsafe]
      | arr items =>
        cases items with
        | nil =>
          have hin : printJ (.arr []) ++ rest = '[' :: ']' :: rest := by
            simp [printJ, printItems]
          rw [hin, readVal.eq_def]
          simp only [skipWs_cons _ (show jsonWs '[' = false by decide)]
          simp only [skipWs_cons _ (show jsonWs ']' = false by decide)]
          simp
        | cons v vs =>
          rw [arr_unfold, readVal.eq_def]
          obtain ⟨c1, t1, hct1, hws1, hnb1, _⟩ := printJ_head v
          have hv1 : printJ v ++ (printArrTail vs ++ rest) =
              c1 :: (t1 ++ (printArrTail vs ++ rest)) := by simp [hct1]
          rw [hv1]
          simp only [skipWs_cons _ (show jsonWs '[' = false by decide)]
          simp only [skipWs_cons _ hws1]
          have hlen1 : (printJ v ++ (printArrTail vs ++ rest)).length < f := by
            have h1 := arr_unfold v vs rest
            have h2 : (printJ (.arr (v :: vs)) ++ rest).length =
                1 + (printJ v ++ (printArrTail vs ++ rest)).length := by
              rw [h1]; simp only [List.length_cons]; omega
            omega
          have hcall := ihv v (printArrTail vs ++ rest) (safeRest_arrTail vs rest) hlen1
          rw [hv1] at hcall
          have hlen2 : (printArrTail vs ++ rest).length < f := by
            have h4 := printJ_length_pos v
            have h5 : (printJ v ++ (printArrTail vs ++ rest)).length =
                (printJ v).length + (printArrTail vs ++ rest).length := by
              simp
            omega
          have hcall2 := iha vs rest hsafe hlen2
          simp only [if_neg (show ¬('[' = '"') by decide), if_pos rfl, if_neg hnb1,
            hcall, hcall2]
          simp
      | obj members =>
        cases members with
        | nil =>
          have hin : printJ (.obj []) ++ rest = Char.ofNat 123 :: Char.ofNat 125 :: rest := by
            simp [printJ, printMembers]
          rw [hin, readVal.eq_def]
          simp only [skipWs_cons _ (show jsonWs (Char.ofNat 123) = false by decide)]
          simp only [skipWs_cons _ (show jsonWs (Char.ofNat 125) = false by decide)]
          simp
        | cons kv kvs =>
          obtain ⟨k, v⟩ := kv
          rw [obj_unfold, readVal.eq_def]
          have hstr : strLit k ++ ':' :: printJ v ++ (printMembTail kvs ++ rest) =
              '"' :: (escapeBody k.data ++ ('"' :: (':' :: printJ v ++
                (printMembTail kvs ++ rest)))) := by
            simp [strLit]
          rw [hstr]
          simp only [skipWs_cons _ (show jsonWs (Char.ofNat 123) = false by decide)]
          simp only [skipWs_cons _ (show jsonWs '"' = false by decide)]
          have hlen1 : (strLit k ++ ':' :: printJ v ++ (printMembTail kvs ++ rest)).length
              < f := by
            have h1 := obj_unfold k v kvs rest
            have h2 : (printJ (.obj ((k, v) :: kvs)) ++ rest).length =
                1 + (strLit k ++ ':' :: printJ v ++ (printMembTail kvs ++ rest)).length := by
              rw [h1]; simp only [List.length_cons]; omega
            omega
          have hcall := ihm k v (printMembTail kvs ++ rest) (safeRest_membTail kvs rest) hlen1
          rw [hstr] at hcall
          have hlen2 : (printMembTail kvs ++ rest).length < f := by
            have h4 := printJ_length_pos v
            have h5 := strLit_length k
            have h6 : (strLit k ++ ':' :: printJ v ++ (printMembTail kvs ++ rest)).length =
                (strLit k).length + 1 + (printJ v).length +
                  (printMembTail kvs ++ rest).length := by
              simp only [List.length_append, List.length_cons]; omega
            omega
          have hcall2 := ihmt kvs rest hsafe hlen2
          simp only [if_neg (show ¬(Char.ofNat 123 = '"') by decide), if_neg
            (show ¬(Char.ofNat 123 = '[') by decide), if_pos rfl,
            if_neg (show ¬('"' = Char.ofNat 125) by decide), hcall, hcall2]
          simp
    refine ⟨hval, ?_, ?_, ?_⟩
    · intro items rest hsafe hlen
      cases items with
      | nil =>
        show readArrTail (f + 1) (']' :: rest) = some ([], rest)
        rw [readArrTail.eq_def]
        simp only [skipWs_cons _ (show jsonWs ']' = false by decide)]
        simp
      | cons v vs =>
        have hin : printArrTail (v :: vs) ++ rest =
            ',' :: (printJ v ++ (printArrTail vs ++ rest)) := by
          simp [printArrTail]
        rw [hin, readArrTail.eq_def]
        simp only [skipWs_cons _ (show jsonWs ',' = false by decide)]
        have hlen1 : (printJ v ++ (printArrTail vs ++ rest)).length < f := by
          rw [hin] at hlen
          simp only [List.length_append, List.length_cons] at hlen ⊢
          omega
        have hcallf := ihv v (printArrTail vs ++ rest) (safeRest_arrTail vs rest) hlen1
        have hlen2 : (printArrTail vs ++ rest).length < f := by
          have h4 := printJ_length_pos v
          simp only [List.length_append] at hlen1 ⊢
          omega
        have hcall2 := iha vs rest hsafe hlen2
        simp only [if_neg (show ¬(',' = ']') by decide), if_pos rfl, hcallf, hcall2]
        simp
    · intro k v rest hsafe hlen
      have hstr : strLit k ++ ':' :: printJ v ++ rest =
          '"' :: (escapeBody k.data ++ ('"' :: (':' :: (printJ v ++ rest)))) := by
        simp [strLit]
      rw [hstr, readMemb.eq_def]
      simp only [skipWs_cons _ (show jsonWs '"' = false by decide)]
      have hbody := readStrBody_rt k.data (':' :: (printJ v ++ rest))
      have hskip2 : skipWs (':' :: (printJ v ++ rest)) = ':' :: (printJ v ++ rest) :=
        skipWs_cons _ (by decide)
      have hlen1 : (printJ v ++ rest).length < f := by
        rw [hstr] at hlen
        simp only [List.length_append, List.length_cons] at hlen ⊢
        omega
      have hcallv := ihv v rest hsafe hlen1
      simp only [hbody, hskip2, if_pos rfl, hcallv]
      cases k with
      | mk kd => simp
    · intro kvs rest hsafe hlen
      cases kvs with
      | nil =>
        show readMembTail (f + 1) (Char.ofNat 125 :: rest) = some ([], rest)
        rw [readMembTail.eq_def]
        simp only [skipWs_cons _ (show jsonWs (Char.ofNat 125) = false by decide)]
        simp
      | cons kv kvs =>
        obtain ⟨k, v⟩ := kv
        have hin : printMembTail ((k, v) :: kvs) ++ rest =
            ',' :: (strLit k ++ ':' :: printJ v ++ (printMembTail kvs ++ rest)) := by
          simp [printMembTail]
        rw [hin, readMembTail.eq_def]
        simp only [skipWs_cons _ (show jsonWs ',' = false by decide)]
        have hlen1 : (strLit k ++ ':' :: printJ v ++ (printMembTail kvs ++ rest)).length
            < f := by
          rw [hin] at hlen
          simp only [List.length_append, List.length_cons] at hlen ⊢
          omega
        have hcallm := ihm k v (printMembTail kvs ++ rest) (safeRest_membTail kvs rest) hlen1
        have hlen2 : (printMembTail kvs ++ rest).length < f := by
          have h4 := printJ_length_pos v
          have h5 := strLit_length k
          simp only [List.length_append, List.length_cons] at hlen1 h5 ⊢
          omega
        have hcall2 := ihmt kvs rest hsafe hlen2
        simp only [if_neg (show ¬(',' = Char.ofNat 125) by decide), if_pos rfl,
          hcallm, hcall2]
        simp

/-- `json.loads` is a left inverse of `json.dumps` (model). -/
theorem json_loads_dumps (j : Json) : json_loads (json_dumps j) = some j := by
  have hlen : (printJ j ++ []).length < (json_dumps j).length + 1 := by
    simp [json_dumps, String.length]
  have h := (read_rt ((json_dumps j).length + 1)).1 j [] safeRest_nil hlen
  simp only [List.append_nil] at h
  show (match readVal ((json_dumps j).length + 1) (json_dumps j).data with
    | some (j2, rest) => if skipWs rest = [] then some j2 else none
    | none => none) = some j
  have hdata : (json_dumps j).data = printJ j := rfl
  rw [hdata, h]
  simp [skipWs]

/-- Stripping is a no-op on a list with non-whitespace first and last
characters. -/
theorem stripChars_sandwich {a b : Char} (l : List Char)
    (ha : pyWs a = false) (hb : pyWs b = false) :
    stripChars (a :: (l ++ [b])) = a :: (l ++ [b]) := by
  have h1 : (a :: (l ++ [b])).dropWhile pyWs = a :: (l ++ [b]) := by
    simp [List.dropWhile_cons, ha]
  have h2 : (a :: (l ++ [b])).reverse = b :: (l.reverse ++ [a]) := by
    simp
  have h3 : (b :: (l.reverse ++ [a])).dropWhile pyWs = b :: (l.reverse ++ [a]) := by
    simp [List.dropWhile_cons, hb]
  simp only [stripChars, h1, h2, h3]
  simp

/-- Stripping is a no-op on a written JSON object. -/
theorem pyStrip_dumps_obj (kvs : List (String × Json)) :
    pyStrip (json_dumps (.obj kvs)) = json_dumps (.obj kvs) := by
  have hpr : printJ (.obj kvs) = Char.ofNat 123 :: (printMembers kvs ++ [Char.ofNat 125]) := by
    simp [printJ]
  show (⟨stripChars (json_dumps (.obj kvs)).data⟩ : String) = json_dumps (.obj kvs)
  have hdata : (json_dumps (.obj kvs)).data = printJ (.obj kvs) := rfl
  rw [hdata, hpr, stripChars_sandwich _ (by decide) (by decide)]
  rfl

/-- Decoding inverts encoding for entities. -/
theorem entityOfJson_entityJson (en : Entity) : entityOfJson (entityJson en) = some en := by
  obtain ⟨t, v, conf, cx⟩ := en
  cases conf with
  | none => simp +decide [entityJson, entityOfJson, getStrField, lookupJ, getStr?, getNumField]
  | some c => simp +decide [entityJson, entityOfJson, getStrField, lookupJ, getStr?, getNumField]

theorem mapM_loop_entity (es : List Entity) :
    ∀ acc, List.mapM.loop entityOfJson (es.map entityJson) acc =
      some (acc.reverse ++ es) := by
  induction es with
  | nil => intro acc; simp [List.mapM.loop]
  | cons e tl ih =>
    intro acc
    simp [List.mapM.loop, entityOfJson_entityJson e, ih]

theorem mapM_entityOfJson (es : List Entity) :
    (es.map entityJson).mapM entityOfJson = some es := by
  have := mapM_loop_entity es []
  simpa [List.mapM] using this

theorem mapM_loop_getStr (xs : List String) :
    ∀ acc, List.mapM.loop getStr? (xs.map Json.str) acc = some (acc.reverse ++ xs) := by
  induction xs with
  | nil => intro acc; simp [List.mapM.loop]
  | cons x tl ih =>
    intro acc
    simp [List.mapM.loop, getStr?, ih]

theorem mapM_getStr (xs : List String) : (xs.map Json.str).mapM getStr? = some xs := by
  have := mapM_loop_getStr xs []
  simpa [List.mapM] using this

/-- Decoding inverts encoding for analysis records (§3 field-for-field). -/
theorem analysis_of_json_of (r : AnalysisResult) : analysis_of_json (json_of r) = some r := by
  obtain ⟨dt, summ, ents, kps, rfs, recs, sent, urg, comp, conf, pt, ts, rr⟩ := r
  cases rr with
  | none =>
    simp +decide [json_of, analysis_of_json, getStrField, lookupJ, getStr?, getNumField,
      getStrList, mapM_loop_entity, mapM_loop_getStr, List.mapM]
  | some s =>
    simp +decide [json_of, analysis_of_json, getStrField, lookupJ, getStr?, getNumField,
      getStrList, mapM_loop_entity, mapM_loop_getStr, List.mapM]

/-- Field lookup in a parse result (a Python dict access on a JSON object). -/
def jsonField (j : Json) (k : String) : Option Json :=
  match j with
  | .obj kvs => lookupJ k kvs
  | _ => none

/-- Python `s[:n] + "..." if len(s) > n else s`. -/
def pyTruncate (n : Nat) (s : String) : String :=
  if s.length > n then pyTake s n ++ "..." else s

/-! ## Claim theorems -/

/-- C9: round trip — serialising a valid `AnalysisResult` to well-formed JSON
and applying the Response Parser's `parse` reconstructs an `AnalysisResult`
equivalent field-for-field to the original. -/
theorem c9_parse_roundtrip (r : AnalysisResult) :
    analysis_of_json (parse_analysis_response (json_dumps (json_of r))) = some r := by
  obtain ⟨kvs, hk⟩ : ∃ kvs, json_of r = Json.obj kvs := ⟨_, rfl⟩
  have hstrip : pyStrip (json_dumps (json_of r)) = json_dumps (json_of r) := by
    rw [hk]; exact pyStrip_dumps_obj kvs
  have hloads : json_loads (pyStrip (json_dumps (json_of r))) = some (json_of r) := by
    rw [hstrip, json_loads_dumps]
  have hparse : parse_analysis_response (json_dumps (json_of r)) = json_of r := by
    show (match json_loads (pyStrip (json_dumps (json_of r))) with
      | some analysis_data => analysis_data
      | none => fallback_analysis_parsing (pyStrip (json_dumps (json_of r)))) = _
    rw [hloads]
  rw [hparse]
  exact analysis_of_json_of r

/-- C5 (amended): on a successful JSON parse the parsed object is returned
as-is; fields absent from the JSON remain absent from the result (defaults
are applied by consumers, e.g. the confidence scorer, not by `parse`). -/
theorem c5_parse_as_is (raw : String) (j : Json)
    (h : json_loads (pyStrip raw) = some j) : parse_analysis_response raw = j := by
  show (match json_loads (pyStrip raw) with
    | some analysis_data => analysis_data
    | none => fallback_analysis_parsing (pyStrip raw)) = j
  rw [h]

/-- C5 witness: a concrete successful parse returned as-is. -/
theorem c5_witness :
    json_loads (pyStrip "\x7b\"document_type\": \"invoice\"\x7d") =
      some (.obj [("document_type", .str "invoice")]) ∧
    parse_analysis_response "\x7b\"document_type\": \"invoice\"\x7d" =
      .obj [("document_type", .str "invoice")] :=
  ⟨rfl, c5_parse_as_is _ _ rfl⟩

/-- C5 counterexample: `"\x7b\x7d"` is valid JSON, yet the returned result has
no `entities` field at all — the claimed defaulting of absent list fields
does not happen in `parse`. -/
theorem c5_counterexample :
    json_loads (pyStrip "\x7b\x7d") = some (.obj []) ∧
    parse_analysis_response "\x7b\x7d" = .obj [] ∧
    jsonField (parse_analysis_response "\x7b\x7d") "entities" = none :=
  ⟨rfl, rfl, rfl⟩

/-- C1 (amended): `parse` is total (never raises), and whenever strict JSON
parsing of the trimmed text fails it returns the fallback result built from
the **trimmed** raw text: `document_type="unknown"`, `summary` = first 500
characters of the trimmed text with an ellipsis appended exactly when that
text is longer than 500 characters, all list fields empty,
`sentiment="neutral"`, `urgency="medium"`, `completeness="unknown"`, and the
trimmed raw text in `raw_response`. -/
theorem c1_fallback_shape (raw : String) (h : json_loads (pyStrip raw) = none) :
    parse_analysis_response raw =
      .obj
        [("document_type", .str "unknown"),
          ("summary", .str (pyTruncate 500 (pyStrip raw))),
          ("entities", .arr []),
          ("key_points", .arr []),
          ("risk_factors", .arr []),
          ("recommendations", .arr []),
          ("sentiment", .str "neutral"),
          ("urgency", .str "medium"),
          ("completeness", .str "unknown"),
          ("raw_response", .str (pyStrip raw))] := by
  show (match json_loads (pyStrip raw) with
    | some analysis_data => analysis_data
    | none => fallback_analysis_parsing (pyStrip raw)) = _
  rw [h]
  simp [fallback_analysis_parsing, pyTruncate]

/-- C1 witness: the fallback on a concrete non-JSON model reply. -/
theorem c1_witness :
    json_loads (pyStrip "Sorry, I cannot process this.") = none ∧
    parse_analysis_response "Sorry, I cannot process this." =
      .obj
        [("document_type", .str "unknown"),
          ("summary", .str "Sorry, I cannot process this."),
          ("entities", .arr []),
          ("key_points", .arr []),
          ("risk_factors", .arr []),
          ("recommendations", .arr []),
          ("sentiment", .str "neutral"),
          ("urgency", .str "medium"),
          ("completeness", .str "unknown"),
          ("raw_response", .str "Sorry, I cannot process this.")] :=
  ⟨rfl, by rw [c1_fallback_shape "Sorry, I cannot process this." rfl]; rfl⟩

/-- C1 counterexample: for the input `" x "` (not valid JSON) the fallback's
`raw_response` is the trimmed text `"x"`, not the full raw text `" x "` —
the claim's "raw_response equal to the full raw text" fails. -/
theorem c1_counterexample :
    json_loads (pyStrip " x ") = none ∧
    jsonField (parse_analysis_response " x ") "raw_response" = some (.str "x") ∧
    "x" ≠ " x " :=
  ⟨rfl, rfl, by decide⟩

/-- The exact-MB comparison done by `validate_file_upload`, as naturals. -/
theorem size_mb_gt (n : Nat) : (50 < (n : ℚ) / (1024 * 1024)) ↔ 52428800 < n := by
  rw [lt_div_iff₀ (by norm_num : (0 : ℚ) < 1024 * 1024)]
  constructor
  · intro h
    by_contra hn
    push_neg at hn
    have : (n : ℚ) ≤ 52428800 := by exact_mod_cast hn
    nlinarith
  · intro h
    have : (52428800 : ℚ) < (n : ℚ) := by exact_mod_cast h
    nlinarith

/-- C6: a file of exactly the 50MB limit passes validation (and is routed to
extraction), while any file at least one byte over is rejected with the
file-too-large error (`FileTooLargeError`) before any content extraction is
attempted — the result is the validation error regardless of the processing
functions. -/
theorem c6_size_boundary :
    (∀ f : UploadedFile, lastDotComponent (pyLower f.name) ∈ supported_types →
      f.size = 50 * 1024 * 1024 →
      validate_file_upload (some f) = (true, .fileIsValid)) ∧
    (∀ f : UploadedFile, 50 * 1024 * 1024 + 1 ≤ f.size →
      validate_file_upload (some f) =
        (false, .tooLarge ((f.size : ℚ) / (1024 * 1024))) ∧
      ∀ (α : Type) (p q : UploadedFile → α),
        extract_content p q (some f) =
          .error (.tooLarge ((f.size : ℚ) / (1024 * 1024)))) := by
  constructor
  · intro f hext hsize
    have hns : ¬ (50 < (f.size : ℚ) / (1024 * 1024)) := by
      rw [size_mb_gt]
      omega
    simp only [validate_file_upload, gt_iff_lt, if_neg hns, if_pos hext]
  · intro f hsize
    have hs : 50 < (f.size : ℚ) / (1024 * 1024) := by
      rw [size_mb_gt]
      omega
    have hv : validate_file_upload (some f) =
        (false, .tooLarge ((f.size : ℚ) / (1024 * 1024))) := by
      simp only [validate_file_upload, gt_iff_lt, if_pos hs]
    refine ⟨hv, fun α p q => ?_⟩
    simp only [extract_content, hv]

/-- C6 witness: the boundary at concrete sizes 52428800 and 52428801 bytes. -/
theorem c6_witness :
    validate_file_upload (some ⟨"doc.pdf", 52428800⟩) = (true, .fileIsValid) ∧
    extract_content (fun _ => (0 : Nat)) (fun _ => 0) (some ⟨"doc.pdf", 52428801⟩) =
      .error (.tooLarge ((52428801 : ℚ) / (1024 * 1024))) :=
  ⟨c6_size_boundary.1 ⟨"doc.pdf", 52428800⟩ (by decide) rfl,
    by
      have h := (c6_size_boundary.2 ⟨"doc.pdf", 52428801⟩ (by norm_num)).2 Nat
        (fun _ => 0) (fun _ => 0)
      simpa using h⟩

/-- Whether a string contains a non-whitespace character (the spec's "page
text containing a non-whitespace character"). -/
def containsNonWs (s : String) : Bool :=
  s.data.any (fun c => !pyWs c)

/-- C3/C7 claim side (amended): the page texts kept for the joined text are
those containing a non-whitespace character. -/
def specPdfText (doc : PdfDoc) : String :=
  String.intercalate "\n\n"
    ((doc.pages.filter (fun p => containsNonWs p.text)).map (fun p => p.text))

/-- C3 claim side as originally stated: join of the non-empty page texts. -/
def claimPdfTextOrig (doc : PdfDoc) : String :=
  String.intercalate "\n\n" ((doc.pages.map (fun p => p.text)).filter (fun t => t ≠ ""))

/-- C7 claim side (amended): keep each successfully decoded image whose
channel count excluding the alpha channel is at most 3. -/
def specKeptImages (doc : PdfDoc) : List PImg :=
  doc.pages.flatMap fun p =>
    p.images.filterMap fun im =>
      match im.decoded with
      | some pi => if im.n - im.alpha ≤ 3 then some pi else none
      | none => none

/-- C7 claim side as originally stated: keep each successfully decoded image
whose color model is representable in at most 4 channels. -/
def claimKeptImagesOrig (doc : PdfDoc) : List PImg :=
  doc.pages.flatMap fun p =>
    p.images.filterMap fun im =>
      match im.decoded with
      | some pi => if im.n ≤ 4 then some pi else none
      | none => none

theorem stripChars_eq_nil_iff (l : List Char) :
    stripChars l = [] ↔ ∀ c ∈ l, pyWs c = true := by
  constructor
  · intro h c hc
    by_contra hws
    simp only [stripChars, List.reverse_eq_nil_iff, List.dropWhile_eq_nil_iff,
      List.mem_reverse] at h
    by_cases hdrop : c ∈ l.dropWhile pyWs
    · exact absurd (h c hdrop) hws
    · have : l.dropWhile pyWs = [] → False := by
        intro hnil
        rw [List.dropWhile_eq_nil_iff] at hnil
        exact absurd (hnil c hc) hws
      cases hd : l.dropWhile pyWs with
      | nil => exact this hd
      | cons a t =>
        have ha : pyWs a = false := by
          have := List.head?_dropWhile_not pyWs l
          rw [hd] at this
          simpa using this
        exact absurd (h a (by rw [hd]; simp)) (by simp [ha])
  · intro h
    have h1 : l.dropWhile pyWs = [] := by
      rw [List.dropWhile_eq_nil_iff]
      exact h
    simp [stripChars, h1]

theorem pyStrip_eq_empty_iff (s : String) :
    pyStrip s = "" ↔ containsNonWs s = false := by
  constructor
  · intro h
    have h1 : stripChars s.data = [] := congrArg String.data h
    rw [stripChars_eq_nil_iff] at h1
    simp only [containsNonWs, List.any_eq_false]
    intro c hc
    simp [h1 c hc]
  · intro h
    simp only [containsNonWs, List.any_eq_false] at h
    have : ∀ c ∈ s.data, pyWs c = true := by
      intro c hc
      have := h c hc
      simpa using this
    show (⟨stripChars s.data⟩ : String) = ⟨[]⟩
    rw [(stripChars_eq_nil_iff s.data).mpr this]

theorem pdfFullText_eq_spec (doc : PdfDoc) : pdfFullText doc = specPdfText doc := by
  simp only [pdfFullText, specPdfText]
  congr 1
  induction doc.pages with
  | nil => rfl
  | cons p ps ih =>
    simp only [List.filterMap_cons, List.filter_cons, List.map_cons]
    by_cases hp : containsNonWs p.text = true
    · have hne : pyStrip p.text ≠ "" := by
        intro h
        rw [pyStrip_eq_empty_iff] at h
        rw [hp] at h
        cases h
      simp only [if_pos hne, hp, if_pos]
      rw [ih]
      simp
    · have heq : pyStrip p.text = "" := by
        rw [pyStrip_eq_empty_iff]
        simpa using hp
      rw [if_neg (by simp [heq])]
      rw [ih]
      simp [hp]

/-- C3 (amended): the extracted text is the `"\n\n"`-join of the page texts
containing a non-whitespace character, and the OCR output replaces it exactly
when that joined text is empty or whitespace-only and at least one image was
extracted; the extracted images are always returned unchanged.  In
particular, when the joined text is non-blank the result does not depend on
the OCR routine at all (no OCR invoked). -/
theorem c3_pdf_text (ocr : List PImg → String) (doc : PdfDoc) :
    process_pdf ocr doc =
      ((if pyStrip (specPdfText doc) = "" ∧ pdfKeptImages doc ≠ []
        then ocr (pdfKeptImages doc) else specPdfText doc), pdfKeptImages doc) := by
  simp only [process_pdf, pdfFullText_eq_spec]
  split <;> rfl

/-- C3 counterexample: a two-page document whose first page text is the
single space `" "` (non-empty but whitespace-only).  The code drops that
page; the claim's join of the non-empty page texts keeps it. -/
theorem c3_counterexample :
    (process_pdf (fun _ => "") ⟨[⟨" ", []⟩, ⟨"A", []⟩]⟩).1 = "A" ∧
    claimPdfTextOrig ⟨[⟨" ", []⟩, ⟨"A", []⟩]⟩ = " \n\nA" ∧
    "A" ≠ " \n\nA" :=
  ⟨by decide, by decide, by decide⟩

/-- C7 (amended): the extractor keeps, in order, every embedded image whose
per-image extraction does not raise and whose channel count excluding the
alpha channel is at most 3 (`pix.n - pix.alpha < 4`); an extraction error on
a single image only skips that image and never fails the document. -/
theorem c7_kept_images (ocr : List PImg → String) (doc : PdfDoc) :
    (process_pdf ocr doc).2 = specKeptImages doc := by
  have h : pdfKeptImages doc = specKeptImages doc := by
    simp only [pdfKeptImages, specKeptImages]
    congr 1
    funext p
    congr 1
    funext im
    cases im.decoded with
    | none => rfl
    | some pi =>
      simp only []
      by_cases him : im.n - im.alpha < 4
      · rw [if_pos him, if_pos (by omega)]
      · rw [if_neg him, if_neg (by omega)]
  simp only [process_pdf, h]
  split <;> rfl

/-- C7 counterexample: a CMYK image has `pix.n = 4` and no alpha channel; the
claim as stated ("representable in 4 or fewer channels") would extract it,
but the code's check `pix.n - pix.alpha < 4` skips it. -/
theorem c7_counterexample :
    (process_pdf (fun _ => "") ⟨[⟨"txt", [⟨4, 0, some ⟨10, 10⟩⟩]⟩]⟩).2 = [] ∧
    claimKeptImagesOrig ⟨[⟨"txt", [⟨4, 0, some ⟨10, 10⟩⟩]⟩]⟩ = [⟨10, 10⟩] ∧
    ([] : List PImg) ≠ [⟨10, 10⟩] :=
  ⟨by decide, by decide, by decide⟩

/-- C4: the content handed to the model is the text part (present exactly
when the text is non-empty and not whitespace-only, truncated to at most
30,000 characters with the truncation marker appended exactly when truncation
occurred) followed by at most the first five images in original order, where
an image is resized exactly when a side exceeds 1024 px, and resizing
preserves the aspect ratio, caps the longest side at exactly 1024, and never
enlarges. -/
theorem c4_prepare_content (text : Option String) (images : List PImg)
    (hdims : ∀ img ∈ images, 0 ≤ img.w ∧ 0 ≤ img.h) :
    (prepare_content_for_analysis text images).1 =
      (match text with
        | some t =>
          if t ≠ "" ∧ pyStrip t ≠ "" then
            [ContentPart.textPart (pyTruncate 30000 ⟨normalizeWsChars t.data⟩)]
          else []
        | none => []) ++
        (images.take 5).map (fun img => ContentPart.imagePart (condResize img)) ∧
    (∀ img ∈ images.take 5,
      (img.w ≤ 1024 ∧ img.h ≤ 1024 → condResize img = img) ∧
      (1024 < max img.w img.h →
        (condResize img).w * img.h = (condResize img).h * img.w ∧
        max (condResize img).w (condResize img).h = 1024 ∧
        (condResize img).w ≤ img.w ∧ (condResize img).h ≤ img.h)) := by
  constructor
  · cases text with
    | none => simp [prepare_content_for_analysis, Function.comp_def]
    | some t =>
      by_cases hc : t ≠ "" ∧ pyStrip t ≠ ""
      · have hts : extract_text_safely t 30000 = pyTruncate 30000 ⟨normalizeWsChars t.data⟩ := by
          simp only [extract_text_safely, if_neg hc.1, pyTruncate]
        simp [prepare_content_for_analysis, hc.1, hc.2, hts, Function.comp_def]
      · rw [not_and_or] at hc
        rcases hc with hc | hc
        · simp at hc
          simp [prepare_content_for_analysis, hc, Function.comp_def]
        · simp at hc
          simp [prepare_content_for_analysis, hc, Function.comp_def]
  · intro img hmem
    have hdim := hdims img (List.take_subset 5 images hmem)
    constructor
    · intro hle
      simp only [condResize]
      rw [if_neg (by push_neg; exact hle)]
    · intro hmax
      have hpos : (0 : ℚ) < max img.w img.h := lt_trans (by norm_num) hmax
      have hne : max img.w img.h ≠ 0 := ne_of_gt hpos
      have hcond : img.w > 1024 ∨ img.h > 1024 := by
        rcases max_cases img.w img.h with ⟨hm, _⟩ | ⟨hm, _⟩
        · left; rw [hm] at hmax; exact hmax
        · right; rw [hm] at hmax; exact hmax
      have hth : ¬ (img.w ≤ 1024 ∧ img.h ≤ 1024) := by
        rcases hcond with h | h
        · intro hc; linarith [hc.1]
        · intro hc; linarith [hc.2]
      have hres : condResize img =
          ⟨img.w * (1024 / max img.w img.h), img.h * (1024 / max img.w img.h)⟩ := by
        simp only [condResize, pilThumbnail, if_pos hcond, if_neg hth]
      set k : ℚ := 1024 / max img.w img.h with hkdef
      have hk0 : 0 ≤ k := by positivity
      have hk1 : k ≤ 1 := by
        rw [hkdef, div_le_one hpos]
        linarith
      refine ⟨?_, ?_, ?_, ?_⟩
      · rw [hres]; ring
      · rw [hres]
        show max (img.w * k) (img.h * k) = 1024
        rw [← max_mul_of_nonneg _ _ hk0, hkdef, mul_comm, div_mul_cancel₀ _ hne]
      · rw [hres]
        exact mul_le_of_le_one_right hdim.1 hk1
      · rw [hres]
        exact mul_le_of_le_one_right hdim.2 hk1

/-- C4 witness: a single oversized image, no text. -/
theorem c4_witness :
    (∀ img ∈ [PImg.mk 2048 1024], 0 ≤ img.w ∧ 0 ≤ img.h) ∧
    (prepare_content_for_analysis none [PImg.mk 2048 1024]).1 =
      ([PImg.mk 2048 1024].take 5).map (fun img => ContentPart.imagePart (condResize img)) :=
  ⟨by decide, (c4_prepare_content none [PImg.mk 2048 1024] (by decide)).1⟩

/-- Claim-side per-entity confidence with the 0.5 default for an absent key. -/
def entityConfD (en : Entity) : ℚ :=
  match en.confidence with
  | some c => c.toRat
  | none => 1 / 2

/-- §3 `document_type` enumeration. -/
def docTypeEnum : List String :=
  ["invoice", "contract", "resume", "report", "letter", "other", "unknown"]

/-- C2 claim-side scoring formula: 0.30 for a known document type, the mean
entity confidence times 0.40 when entities exist, 0.20 for a summary longer
than 50 characters, 0.10 for non-empty key points, capped at 1. -/
def specScore (r : AnalysisResult) : ℚ :=
  min
    ((if r.document_type ≠ "unknown" then 3 / 10 else 0) +
      (if r.entities ≠ [] then
        ((r.entities.map entityConfD).sum / r.entities.length) * (4 / 10)
      else 0) +
      (if r.summary.length > 50 then 2 / 10 else 0) +
      (if r.key_points ≠ [] then 1 / 10 else 0)) 1

theorem exc_bind_ok {α β : Type} (a : α) (f : α → Except Unit β) :
    (Except.ok a >>= f) = f a := rfl

theorem exc_pure {α : Type} (a : α) : (pure a : Except Unit α) = .ok a := rfl

theorem entityConf_entityJson (en : Entity) :
    entityConf (entityJson en) = .ok (entityConfD en) := by
  obtain ⟨t, v, conf, cx⟩ := en
  cases conf with
  | none => rfl
  | some c => rfl

theorem mapM_loop_entityConf (es : List Entity) :
    ∀ acc, List.mapM.loop entityConf (es.map entityJson) acc =
      .ok (acc.reverse ++ es.map entityConfD) := by
  induction es with
  | nil => intro acc; simp [List.mapM.loop, exc_pure]
  | cons e tl ih =>
    intro acc
    simp [List.mapM.loop, entityConf_entityJson e, ih, exc_bind_ok]

theorem pyTruthy_arr_ne {α : Type} (f : α → Json) (l : List α) (h : l ≠ []) :
    pyTruthy (.arr (l.map f)) = true := by
  simp [pyTruthy, List.isEmpty_iff, h]

set_option maxHeartbeats 1000000 in
theorem calcBody_json_of (r : AnalysisResult) (hdtne : r.document_type ≠ "") :
    calcConfidenceBody (json_of r) = .ok (specScore r) := by
  obtain ⟨dt, summ, ents, kps, rfs, recs, sent, urg, comp, conf, pt, ts, rr⟩ := r
  simp only [ne_eq] at hdtne
  have h1 : dictGet (json_of ⟨dt, summ, ents, kps, rfs, recs, sent, urg, comp, conf,
      pt, ts, rr⟩) "document_type" = .ok (some (.str dt)) := by
    simp +decide [json_of, dictGet, lookupJ]
  have h2 : dictGet (json_of ⟨dt, summ, ents, kps, rfs, recs, sent, urg, comp, conf,
      pt, ts, rr⟩) "entities" = .ok (some (.arr (ents.map entityJson))) := by
    simp +decide [json_of, dictGet, lookupJ]
  have h3 : dictGet (json_of ⟨dt, summ, ents, kps, rfs, recs, sent, urg, comp, conf,
      pt, ts, rr⟩) "summary" = .ok (some (.str summ)) := by
    simp +decide [json_of, dictGet, lookupJ]
  have h4 : dictGet (json_of ⟨dt, summ, ents, kps, rfs, recs, sent, urg, comp, conf,
      pt, ts, rr⟩) "key_points" = .ok (some (.arr (kps.map .str))) := by
    simp +decide [json_of, dictGet, lookupJ]
  simp only [calcConfidenceBody, h1, h2, h3, h4, exc_bind_ok, Option.getD_some]
  simp only [List.mapM, mapM_loop_entityConf, List.reverse_nil, List.nil_append,
    exc_bind_ok, exc_pure, List.length_map]
  by_cases hents : ents = []
  · subst hents
    by_cases hsumm : summ = ""
    · subst hsumm
      simp [pyTruthy, isStrUnknown, specScore, exc_pure, exc_bind_ok, hdtne]
    · simp [pyTruthy, isStrUnknown, pyLen, specScore, exc_pure, exc_bind_ok, hdtne, hsumm]
  · have htr := pyTruthy_arr_ne entityJson ents hents
    by_cases hsumm : summ = ""
    · subst hsumm
      simp [pyTruthy, isStrUnknown, htr, specScore, exc_pure, exc_bind_ok, hdtne, hents]
    · simp [pyTruthy, isStrUnknown, htr, pyLen, specScore, exc_pure, exc_bind_ok,
        hdtne, hents, hsumm]

/-- C2: for every well-formed `AnalysisResult` (document type drawn from the
§3 enumeration, entity confidences in [0,1]) the computed confidence equals
the spec formula — 0.30 for a known type, mean entity confidence × 0.40 over
non-empty entities (0.5 default for a missing confidence), 0.20 for a
summary over 50 characters, 0.10 for non-empty key points, capped at 1.0 —
and the output lies in [0,1].  The embedded scorer is total (no exception
path; internal errors yield 0.5). -/
theorem c2_confidence_score (r : AnalysisResult)
    (hconf : ∀ en ∈ r.entities, ∀ c, en.confidence = some c →
      0 ≤ c.toRat ∧ c.toRat ≤ 1)
    (hdt : r.document_type ∈ docTypeEnum) :
    calculate_confidence (json_of r) = specScore r ∧
    0 ≤ calculate_confidence (json_of r) ∧ calculate_confidence (json_of r) ≤ 1 := by
  have hdtne : r.document_type ≠ "" := by
    intro h0
    rw [h0] at hdt
    exact absurd hdt (by decide)
  have hbody := calcBody_json_of r hdtne
  have heq : calculate_confidence (json_of r) = specScore r := by
    simp [calculate_confidence, hbody]
  refine ⟨heq, ?_, ?_⟩
  · rw [heq]
    have hconfD : ∀ en ∈ r.entities, 0 ≤ entityConfD en ∧ entityConfD en ≤ 1 := by
      intro en hen
      cases hc : en.confidence with
      | none =>
        constructor <;> simp [entityConfD, hc] <;> norm_num
      | some c =>
        have := hconf en hen c hc
        constructor <;> simp [entityConfD, hc, this.1, this.2]
    have hsum0 : 0 ≤ (r.entities.map entityConfD).sum :=
      List.sum_nonneg (by
        intro x hx
        obtain ⟨en, hen, rfl⟩ := List.mem_map.mp hx
        exact (hconfD en hen).1)
    have hterm : 0 ≤ (if r.entities ≠ [] then
        ((r.entities.map entityConfD).sum / r.entities.length) * (4 / 10) else (0 : ℚ)) := by
      split
      · exact mul_nonneg (div_nonneg hsum0 (by positivity)) (by norm_num)
      · exact le_refl 0
    have hb1 : (0 : ℚ) ≤ (if r.document_type ≠ "unknown" then (3 : ℚ) / 10 else 0) := by
      split <;> norm_num
    have hb3 : (0 : ℚ) ≤ (if r.summary.length > 50 then (2 : ℚ) / 10 else 0) := by
      split <;> norm_num
    have hb4 : (0 : ℚ) ≤ (if r.key_points ≠ [] then (1 : ℚ) / 10 else 0) := by
      split <;> norm_num
    simp only [specScore]
    exact le_min (by linarith) (by norm_num)
  · rw [heq]
    simp only [specScore]
    exact min_le_right _ _

/-- C2 witness: a concrete record with one entity lacking a confidence key. -/
theorem c2_witness :
    (∀ en ∈ ([⟨"person", "Bob", none, "ctx"⟩] : List Entity), ∀ c : Dec10,
      en.confidence = some c → 0 ≤ c.toRat ∧ c.toRat ≤ 1) ∧
    calculate_confidence (json_of ⟨"invoice", "short", [⟨"person", "Bob", none, "ctx"⟩],
        ["k"], [], [], "neutral", "low", "complete", ⟨0, 0⟩, ⟨0, 0⟩, "ts", none⟩) =
      specScore ⟨"invoice", "short", [⟨"person", "Bob", none, "ctx"⟩],
        ["k"], [], [], "neutral", "low", "complete", ⟨0, 0⟩, ⟨0, 0⟩, "ts", none⟩ :=
  ⟨by
      intro en hen c hc
      rw [List.mem_singleton] at hen
      subst hen
      simp at hc,
    (c2_confidence_score _ (by
      intro en hen c hc
      rw [List.mem_singleton] at hen
      subst hen
      simp at hc) (by decide)).1⟩

/-- Claim-side whitespace collapsing scanner: every maximal whitespace run
becomes a single space (`inRun` records being inside a run). -/
def collapseAux : Bool → List Char → List Char
  | _, [] => []
  | inRun, c :: cs =>
    if pyWs c then
      if inRun then collapseAux true cs else ' ' :: collapseAux true cs
    else c :: collapseAux false cs

/-- Drop leading spaces. -/
def trimL (l : List Char) : List Char :=
  l.dropWhile (fun c => c = ' ')

/-- Drop trailing spaces. -/
def trimR (l : List Char) : List Char :=
  (l.reverse.dropWhile (fun c => c = ' ')).reverse

/-- Drop leading and trailing spaces. -/
def trimSpaces (l : List Char) : List Char :=
  trimR (trimL l)

/-- Two adjacent whitespace characters somewhere in the list. -/
def hasConsecWs : List Char → Bool
  | c1 :: c2 :: rest => (pyWs c1 && pyWs c2) || hasConsecWs (c2 :: rest)
  | _ => false

theorem collapseAux_true_head (cs : List Char) :
    ∀ c, (collapseAux true cs).head? = some c → pyWs c = false := by
  induction cs with
  | nil => intro c hc; cases hc
  | cons a t ih =>
    intro c hc
    by_cases ha : pyWs a
    · rw [show collapseAux true (a :: t) = collapseAux true t by
        simp [collapseAux, ha]] at hc
      exact ih c hc
    · rw [show collapseAux true (a :: t) = a :: collapseAux false t by
        simp [collapseAux, ha]] at hc
      simp only [List.head?_cons, Option.some.injEq] at hc
      subst hc
      simpa using ha

theorem trimL_collapseAux (l : List Char) :
    trimL (collapseAux false l) = collapseAux true l := by
  cases l with
  | nil => rfl
  | cons c cs =>
    by_cases hc : pyWs c
    · rw [show collapseAux false (c :: cs) = ' ' :: collapseAux true cs by
        simp [collapseAux, hc]]
      rw [show collapseAux true (c :: cs) = collapseAux true cs by
        simp [collapseAux, hc]]
      simp only [trimL, List.dropWhile_cons, if_pos rfl]
      cases hy : collapseAux true cs with
      | nil => simp
      | cons y ys =>
        have hyws : pyWs y = false := collapseAux_true_head cs y (by rw [hy]; rfl)
        have : ¬ (y = ' ') := by
          intro h; subst h; cases hyws
        simp [List.dropWhile_cons, this]
    · rw [show collapseAux false (c :: cs) = c :: collapseAux false cs by
        simp [collapseAux, hc]]
      rw [show collapseAux true (c :: cs) = c :: collapseAux false cs by
        simp [collapseAux, hc]]
      have : ¬ (c = ' ') := by
        intro h; subst h; simp [pyWs] at hc
      simp [trimL, List.dropWhile_cons, this]

theorem trimR_nil : trimR [] = [] := rfl

theorem trimR_cons_ne {a : Char} (X : List Char) (ha : ¬ a = ' ') :
    trimR (a :: X) = a :: trimR X := by
  simp only [trimR, List.reverse_cons]
  by_cases hX : X.reverse.dropWhile (fun c => c = ' ') = []
  · rw [List.dropWhile_append]
    simp [hX, List.dropWhile_cons, ha]
  · rw [List.dropWhile_append]
    simp [hX]

theorem trimR_cons_of_ne_nil {a : Char} (X : List Char) (hX : trimR X ≠ []) :
    trimR (a :: X) = a :: trimR X := by
  have hX2 : X.reverse.dropWhile (fun c => c = ' ') ≠ [] := by
    intro h
    exact hX (by simp [trimR, h])
  simp only [trimR, List.reverse_cons]
  rw [List.dropWhile_append]
  simp [hX2]

theorem trimR_eq_nil_iff (X : List Char) : trimR X = [] ↔ ∀ c ∈ X, c = ' ' := by
  simp only [trimR, List.reverse_eq_nil_iff, List.dropWhile_eq_nil_iff, List.mem_reverse]
  constructor
  · intro h c hc
    have := h c hc
    simpa using this
  · intro h c hc
    simp [h c hc]

theorem wordsAux_ne_nil (l : List Char) :
    ∀ acc w, w ∈ wordsAux l acc → w ≠ [] := by
  induction l with
  | nil =>
    intro acc w hw
    by_cases hacc : acc = []
    · simp [wordsAux, hacc] at hw
    · simp only [wordsAux, if_neg hacc, List.mem_singleton] at hw
      subst hw
      simpa using hacc
  | cons c cs ih =>
    intro acc w hw
    by_cases hc : pyWs c
    · by_cases hacc : acc = []
      · simp only [wordsAux, hc, if_true, if_pos hacc] at hw
        exact ih [] w hw
      · simp only [wordsAux, hc, if_true, if_neg hacc, List.mem_cons] at hw
        rcases hw with rfl | hw
        · simpa using hacc
        · exact ih [] w hw
    · simp only [wordsAux, hc, if_false] at hw
      exact ih (c :: acc) w hw

theorem joinSp_ne_nil (w : List Char) (ws : List (List Char)) (hw : w ≠ []) :
    joinSp (w :: ws) ≠ [] := by
  cases ws with
  | nil => simpa [joinSp] using hw
  | cons w2 ws2 => simp [joinSp, hw]

/-- The two-state word scan agrees with collapse-and-trim. -/
theorem wordsAux_collapse (l : List Char) :
    joinSp (wordsAux l []) = trimR (collapseAux true l) ∧
    (∀ c2 acc, joinSp (wordsAux l (c2 :: acc)) =
      (c2 :: acc).reverse ++ trimR (collapseAux false l)) := by
  induction l with
  | nil =>
    constructor
    · rfl
    · intro c2 acc
      simp [wordsAux, joinSp, collapseAux, trimR_nil]
  | cons c cs ih =>
    obtain ⟨ih1, ih2⟩ := ih
    by_cases hc : pyWs c
    · have hcol1 : collapseAux true (c :: cs) = collapseAux true cs := by
        simp [collapseAux, hc]
      have hcol2 : collapseAux false (c :: cs) = ' ' :: collapseAux true cs := by
        simp [collapseAux, hc]
      constructor
      · rw [show wordsAux (c :: cs) [] = wordsAux cs [] by simp [wordsAux, hc]]
        rw [hcol1]
        exact ih1
      · intro c2 acc
        rw [show wordsAux (c :: cs) (c2 :: acc) = (c2 :: acc).reverse :: wordsAux cs [] by
          simp [wordsAux, hc]]
        rw [hcol2]
        cases hws : wordsAux cs [] with
        | nil =>
          have hzero : trimR (collapseAux true cs) = [] := by
            rw [← ih1, hws]; rfl
          have hsp : trimR (' ' :: collapseAux true cs) = [] := by
            rw [trimR_eq_nil_iff] at hzero ⊢
            intro x hx
            rcases List.mem_cons.mp hx with rfl | hx
            · rfl
            · exact hzero x hx
          rw [hsp]
          simp [joinSp]
        | cons w2 ws2 =>
          have hw2 : w2 ≠ [] := wordsAux_ne_nil cs [] w2 (by rw [hws]; simp)
          have hjne : joinSp (w2 :: ws2) ≠ [] := joinSp_ne_nil w2 ws2 hw2
          have htne : trimR (collapseAux true cs) ≠ [] := by
            rw [← ih1, hws]
            exact hjne
          rw [trimR_cons_of_ne_nil _ htne]
          rw [show joinSp ((c2 :: acc).reverse :: w2 :: ws2) =
            (c2 :: acc).reverse ++ ' ' :: joinSp (w2 :: ws2) by simp [joinSp]]
          rw [← ih1, hws]
    · have hcol1 : collapseAux true (c :: cs) = c :: collapseAux false cs := by
        simp [collapseAux, hc]
      have hcol2 : collapseAux false (c :: cs) = c :: collapseAux false cs := by
        simp [collapseAux, hc]
      have hcsp : ¬ (c = ' ') := by
        intro h; subst h; simp [pyWs] at hc
      constructor
      · rw [show wordsAux (c :: cs) [] = wordsAux cs [c] by simp [wordsAux, hc]]
        rw [hcol1, trimR_cons_ne _ hcsp]
        have := ih2 c []
        simpa using this
      · intro c2 acc
        rw [show wordsAux (c :: cs) (c2 :: acc) = wordsAux cs (c :: c2 :: acc) by
          simp [wordsAux, hc]]
        rw [hcol2, trimR_cons_ne _ hcsp]
        have := ih2 c (c2 :: acc)
        rw [this]
        simp

/-- The code's normalisation (`" ".join(text.split())`) collapses every
interior maximal whitespace run to one space and removes leading and
trailing whitespace. -/
theorem normalizeWsChars_eq_claim (l : List Char) :
    normalizeWsChars l = trimSpaces (collapseAux false l) := by
  rw [normalizeWsChars, pySplitWs, trimSpaces, trimL_collapseAux]
  exact (wordsAux_collapse l).1

theorem hasConsecWs_tail {c : Char} {l : List Char} (h : hasConsecWs (c :: l) = false) :
    hasConsecWs l = false := by
  cases l with
  | nil => rfl
  | cons d r =>
    simp only [hasConsecWs, Bool.or_eq_false_iff] at h
    exact h.2

theorem hasConsecWs_of_noWs (X : List Char) (h : ∀ c ∈ X, pyWs c = false) :
    hasConsecWs X = false := by
  induction X with
  | nil => rfl
  | cons c l ih =>
    cases l with
    | nil => rfl
    | cons d r =>
      simp only [hasConsecWs, Bool.or_eq_false_iff]
      refine ⟨?_, ih (fun x hx => h x (by simp [hx]))⟩
      simp [h c (by simp)]

theorem hasConsecWs_append_noWs (X Y : List Char) (hX : ∀ c ∈ X, pyWs c = false) :
    hasConsecWs (X ++ Y) = hasConsecWs Y := by
  induction X with
  | nil => rfl
  | cons x xs ih =>
    have hx : pyWs x = false := hX x (by simp)
    have ihx := ih (fun c hc => hX c (by simp [hc]))
    cases xs with
    | nil =>
      cases Y with
      | nil => rfl
      | cons y ys =>
        simp only [List.nil_append, List.cons_append, hasConsecWs, hx]
        simp
    | cons x2 xs2 =>
      simp only [List.cons_append, hasConsecWs, hx] at ihx ⊢
      simp only [Bool.false_and, Bool.false_or]
      exact ihx

theorem hasConsecWs_append_right (Y Z : List Char) (hY : hasConsecWs Y = false)
    (hZ : ∀ c ∈ Z, pyWs c = false) : hasConsecWs (Y ++ Z) = false := by
  induction Y with
  | nil => exact hasConsecWs_of_noWs Z hZ
  | cons y ys ih =>
    have hys := ih (hasConsecWs_tail hY)
    cases ys with
    | nil =>
      cases Z with
      | nil => rfl
      | cons z zs =>
        simp only [List.nil_append, List.cons_append, hasConsecWs,
          Bool.or_eq_false_iff] at hys ⊢
        refine ⟨?_, hys⟩
        simp [hZ z (by simp)]
    | cons y2 ys2 =>
      simp only [List.cons_append, hasConsecWs, Bool.or_eq_false_iff] at hY ⊢
      exact ⟨hY.1, hys⟩

theorem hasConsecWs_take (X : List Char) (h : hasConsecWs X = false) :
    ∀ n, hasConsecWs (X.take n) = false := by
  induction X with
  | nil => intro n; simp [hasConsecWs]
  | cons c l ih =>
    intro n
    cases n with
    | zero => rfl
    | succ m =>
      cases l with
      | nil => simp [List.take, hasConsecWs]
      | cons d r =>
        simp only [List.take]
        cases m with
        | zero => rfl
        | succ m2 =>
          have hdr := ih (hasConsecWs_tail h) (m2 + 1)
          simp only [hasConsecWs, Bool.or_eq_false_iff] at h ⊢
          refine ⟨h.1, ?_⟩
          simpa [List.take] using hdr

theorem wordsAux_noWs (l : List Char) :
    ∀ acc, (∀ c ∈ acc, pyWs c = false) →
      ∀ w ∈ wordsAux l acc, ∀ c ∈ w, pyWs c = false := by
  induction l with
  | nil =>
    intro acc hacc w hw c hc
    by_cases ha : acc = []
    · simp [wordsAux, ha] at hw
    · simp only [wordsAux, if_neg ha, List.mem_singleton] at hw
      subst hw
      exact hacc c (by simpa using hc)
  | cons a t ih =>
    intro acc hacc w hw c hc
    by_cases haws : pyWs a
    · by_cases ha : acc = []
      · simp only [wordsAux, haws, if_true, if_pos ha] at hw
        exact ih [] (by simp) w hw c hc
      · simp only [wordsAux, haws, if_true, if_neg ha, List.mem_cons] at hw
        rcases hw with rfl | hw
        · exact hacc c (by simpa using hc)
        · exact ih [] (by simp) w hw c hc
    · simp only [wordsAux, haws, if_false] at hw
      refine ih (a :: acc) ?_ w hw c hc
      intro x hx
      rcases List.mem_cons.mp hx with rfl | hx
      · simpa using haws
      · exact hacc x hx

theorem joinSp_clean (ws : List (List Char)) (hne : ∀ w ∈ ws, w ≠ [])
    (hfree : ∀ w ∈ ws, ∀ c ∈ w, pyWs c = false) :
    hasConsecWs (joinSp ws) = false ∧
      ∀ c ∈ joinSp ws, pyWs c = true → c = ' ' := by
  induction ws with
  | nil => exact ⟨rfl, by simp [joinSp]⟩
  | cons w tl ih =>
    cases tl with
    | nil =>
      refine ⟨hasConsecWs_of_noWs w (hfree w (by simp)), ?_⟩
      intro c hc hwc
      have := hfree w (by simp) c (by simpa [joinSp] using hc)
      rw [this] at hwc
      cases hwc
    | cons w2 ws2 =>
      obtain ⟨ihc, ihm⟩ := ih (fun x hx => hne x (by simp [hx]))
        (fun x hx => hfree x (by simp [hx]))
      have hwfree : ∀ c ∈ w, pyWs c = false := hfree w (by simp)
      have hw2 : w2 ≠ [] := hne w2 (by simp)
      have hj : joinSp (w :: w2 :: ws2) = w ++ ' ' :: joinSp (w2 :: ws2) := by
        simp [joinSp]
      constructor
      · rw [hj, hasConsecWs_append_noWs _ _ hwfree]
        cases hw2d : w2 with
        | nil => exact absurd hw2d hw2
        | cons b bs =>
          have hbf : pyWs b = false :=
            hfree w2 (by simp) b (by rw [hw2d]; simp)
          have hjoin2 : ∃ t, joinSp (w2 :: ws2) = b :: t := by
            cases ws2 with
            | nil => exact ⟨bs, by simp [joinSp, hw2d]⟩
            | cons w3 ws3 => exact ⟨bs ++ ' ' :: joinSp (w3 :: ws3), by simp [joinSp, hw2d]⟩
          obtain ⟨t, ht⟩ := hjoin2
          rw [← hw2d, ht]
          rw [ht] at ihc
          simp only [hasConsecWs, Bool.or_eq_false_iff]
          exact ⟨by simp [hbf], ihc⟩
      · intro c hc hwc
        rw [hj] at hc
        rcases List.mem_append.mp hc with hc | hc
        · rw [hwfree c hc] at hwc; cases hwc
        · rcases List.mem_cons.mp hc with rfl | hc
          · rfl
          · exact ihm c hc hwc

/-- The output of `extract_text_safely` never contains two adjacent
whitespace characters, and its only whitespace character is the space. -/
theorem extract_text_safely_clean (t : String) :
    hasConsecWs (extract_text_safely t 30000).data = false ∧
      ∀ c ∈ (extract_text_safely t 30000).data, pyWs c = true → c = ' ' := by
  by_cases ht : t = ""
  · subst ht
    exact ⟨rfl, by intro c hc; simp [extract_text_safely] at hc⟩
  · have hwords := joinSp_clean (wordsAux t.data [])
      (wordsAux_ne_nil t.data []) (wordsAux_noWs t.data [] (by simp))
    have hJ : (⟨normalizeWsChars t.data⟩ : String).data = joinSp (wordsAux t.data []) := rfl
    simp only [extract_text_safely, if_neg ht]
    by_cases hlen : (⟨normalizeWsChars t.data⟩ : String).length > 30000
    · rw [if_pos hlen]
      have hdata : (pyTake ⟨normalizeWsChars t.data⟩ 30000 ++ "...").data =
          (joinSp (wordsAux t.data [])).take 30000 ++ ['.', '.', '.'] := by
        simp [pyTake, hJ]
        rfl
      rw [hdata]
      constructor
      · apply hasConsecWs_append_right
        · exact hasConsecWs_take _ hwords.1 30000
        · intro c hc
          have hcd : c = '.' := by simpa using hc
          subst hcd
          rfl
      · intro c hc hwc
        rcases List.mem_append.mp hc with hc | hc
        · exact hwords.2 c (List.take_subset _ _ hc) hwc
        · have hcd : c = '.' := by simpa using hc
          subst hcd
          exact absurd hwc (by decide)
    · rw [if_neg hlen]
      rw [show (⟨normalizeWsChars t.data⟩ : String).data = joinSp (wordsAux t.data []) from rfl]
      exact hwords

/-- C10 (amended): the text part handed to the model is normalised before
bounding — every maximal interior run of whitespace (including newlines and
the blank-line page separators) is collapsed to a single space, leading and
trailing whitespace is removed entirely, and the 30,000-character truncation
applies to this normalised text; consequently the text part equals the
extracted text only when that text contains no consecutive whitespace and no
newlines. -/
theorem c10_whitespace_normalization (text : String) :
    extract_text_safely text 30000 =
      pyTruncate 30000 ⟨trimSpaces (collapseAux false text.data)⟩ ∧
    (extract_text_safely text 30000 = text →
      hasConsecWs text.data = false ∧ '\n' ∉ text.data) := by
  constructor
  · by_cases ht : text = ""
    · subst ht; rfl
    · have : extract_text_safely text 30000 =
          pyTruncate 30000 ⟨normalizeWsChars text.data⟩ := by
        simp only [extract_text_safely, if_neg ht, pyTruncate]
      rw [this, normalizeWsChars_eq_claim]
  · intro heq
    have hdata : (extract_text_safely text 30000).data = text.data := congrArg String.data heq
    have hclean := extract_text_safely_clean text
    constructor
    · rw [← hdata]; exact hclean.1
    · intro hmem
      have := hclean.2 '\n' (by rw [hdata]; exact hmem) (by decide)
      cases this

/-- C10 counterexample: for the text `" a"` the code's normalisation deletes
the leading whitespace run while the claim collapses it to a single space:
the claimed text part is `" a"`, the actual text part is `"a"`. -/
theorem c10_counterexample :
    extract_text_safely " a" 30000 = "a" ∧
    pyTruncate 30000 ⟨collapseAux false (" a").data⟩ = " a" ∧
    "a" ≠ " a" :=
  ⟨by decide, rfl, by decide⟩

/-- C8 (code bug in the source): `_prepare_content_for_analysis` resizes via
PIL `Image.thumbnail`, which mutates the caller's image in place; after the
call the caller's 2048×1024 image has become 1024×512, contradicting the
spec's "immutable after creation" / "ephemeral content parts". -/
theorem c8_inplace_mutation :
    (prepare_content_for_analysis none [⟨2048, 1024⟩]).2 = [⟨1024, 512⟩] ∧
    (⟨1024, 512⟩ : PImg) ≠ ⟨2048, 1024⟩ := by
  constructor
  · simp only [prepare_content_for_analysis, List.take, List.map, condResize, pilThumbnail,
      List.drop]
    norm_num
  · decide

end DocuGenie
